import Mathlib

/-!
A shallow embedding of the content-addressed memoization engine in
`mandala/_next/storage.py` (class `Storage`), together with the data model and
cached-table layer it relies on.  The collaborators `model.py` and
`storage_utils.py` are not part of the available sources; every definition
taken from them is modelled from the natural-language specification and marked
`Modelled from the spec:` in its doc comment.  Everything else is translated
line by line from `storage.py`.

Machine-level details that are irrelevant to the verified properties are
abstracted as the spec directs: serialization is an injective map on opaque
payloads, and the two hash functions (`content_hash`, `history_hash`) are
modelled as constructors of a free term algebra `Mandala.Id`, which makes them
deterministic and collision-resistant by construction.
-/

namespace Mandala

/-- Opaque leaf payloads of atom refs.  `pnone` models the Python value
`None` (the payload of a detached ref); `pv n` is an arbitrary opaque value.
Modelled from the spec: "values are opaque payloads". -/
inductive PyVal where
  | pnone
  | pv (n : Nat)
deriving DecidableEq

/-- Identities (cids and hids).  Modelled from the spec: the hashing adapter
is "deterministic, collision-resistant"; we model it as a free term algebra,
so distinct hash inputs give distinct identities by constructor injectivity.

* `content v` — `content_hash(serialize(v))`, the cid of an atom payload;
* `rawSeed c` — the hid seeded from the content id for a raw wrapped value
  with no producing call;
* `inil`/`icons`/`sicons` — hash-chaining of a sequence of identities
  (respectively of name-tagged identities), used as the component list of the
  structured hashes below;
* `listCid cs` — the cid of a list value: hash of the chain of child cids;
* `callHid op version args` — `history_hash` of (op name, version, keyed
  input hids); `callCid` likewise over input cids;
* `outputHid call name` — the hid of a named output, derived from the call's
  hid and the output name. -/
inductive Id where
  | content (v : PyVal)
  | rawSeed (c : Id)
  | inil
  | icons (i rest : Id)
  | sicons (s : String) (i : Id) (rest : Id)
  | listCid (cs : Id)
  | callHid (op : String) (version : Nat) (args : Id)
  | callCid (op : String) (version : Nat) (args : Id)
  | outputHid (call : Id) (name : String)
deriving DecidableEq

/-- Hash-combine a list of identities into a single chained identity. -/
def chainIds : List Id → Id
  | [] => .inil
  | i :: rest => .icons i (chainIds rest)

/-- Hash-combine a keyed list of identities into a single chained identity. -/
def chainNamedIds : List (String × Id) → Id
  | [] => .inil
  | (s, i) :: rest => .sicons s i (chainNamedIds rest)

/-- Types declared for op input/output positions.  Modelled from the spec:
"atomic vs. ordered-sequence, extensible to further composite kinds"
(`AtomType` / `ListType` in the source). -/
inductive Ty where
  | atomT
  | listT (elt : Ty)
deriving DecidableEq

/-- Value handles (`Ref` in `model.py`).  Modelled from the spec:
* `atom cid hid inMemory obj` — an `AtomRef`; a detached one has
  `inMemory = false` and payload `pnone`;
* `list cid hid inMemory elts` — a `ListRef` over child refs; a detached one
  carries recursively detached children. -/
inductive Ref where
  | atom (cid hid : Id) (inMemory : Bool) (obj : PyVal)
  | list (cid hid : Id) (inMemory : Bool) (elts : List Ref)

/-- Raw in-process values as passed to and returned by ops: an opaque leaf,
the Python `None`, a Python list, or an already-wrapped ref. -/
inductive Val where
  | vnone
  | atom (n : Nat)
  | vlist (elts : List Val)
  | ref (r : Ref)

def Ref.cid : Ref → Id
  | .atom c _ _ _ => c
  | .list c _ _ _ => c

def Ref.hid : Ref → Id
  | .atom _ h _ _ => h
  | .list _ h _ _ => h

/-- Replace the (top-level) hid of a ref (`Ref.with_hid`). -/
def Ref.withHid : Ref → Id → Ref
  | .atom c _ m o, h => .atom c h m o
  | .list c _ m es, h => .list c h m es

mutual

/-- Detach a ref: drop residency, recursively for list children.
Modelled from the spec: "a detached AtomRef carries cid/hid only", "a
detached ListRef carries child Refs that are themselves detached
(shape-only), recursively". -/
def Ref.detached : Ref → Ref
  | .atom c h _ _ => .atom c h false .pnone
  | .list c h _ es => .list c h false (Ref.detachedList es)

/-- Detach every ref in a list (the recursion of `Ref.detached` over the
children of a `ListRef`). -/
def Ref.detachedList : List Ref → List Ref
  | [] => []
  | r :: rs => r.detached :: Ref.detachedList rs

end

/-- The shape of a ref as stored in the `shapes` table (`Ref.shape`);
for this engine it is the detached ref. -/
def Ref.shape (r : Ref) : Ref := r.detached

/-- `Ref.shallow_copy`: in the functional model a copy is the ref itself. -/
def Ref.shallowCopy (r : Ref) : Ref := r

/-- Attach a payload to an atom ref (`shape.attached(obj=...)`). -/
def Ref.attachedAtom : Ref → PyVal → Ref
  | .atom c h _ _, o => .atom c h true o
  | r, _ => r

/-- Attach children to a list ref (`shape.attached(obj=...)`). -/
def Ref.attachedList : Ref → List Ref → Ref
  | .list c h _ _, es => .list c h true es
  | r, _ => r

/-- Serialization adapter.  Modelled from the spec: an injective
deterministic map into byte payloads; bytes are identified with the opaque
payloads themselves. -/
def serialize (v : PyVal) : PyVal := v

/-- Inverse of `serialize`. -/
def deserialize (v : PyVal) : PyVal := v

/-- `content_hash` of a serialized payload. -/
def contentHash (bytes : PyVal) : Id := Id.content bytes

/-- `wrap_atom(val, history_id)`: wrap a raw payload as an in-memory
`AtomRef`; cid is the content hash, and when no hid is supplied it is seeded
from the content id.  Modelled from the spec: "for a raw input value with no
producing call, a hash seeded independently (or supplied)". -/
def wrapAtom (v : PyVal) (historyId : Option Id) : Ref :=
  let cid := contentHash (serialize v)
  Ref.atom cid (historyId.getD (Id.rawSeed cid)) true v

/-- Convert a raw value to a payload; fails (`none`) if the value still
contains a `Ref` handle, which is outside the opaque-payload fragment. -/
def Val.toRaw? : Val → Option PyVal
  | .vnone => some .pnone
  | .atom n => some (.pv n)
  | .vlist _ => none
  | .ref _ => none

/-- Embed a payload back into a raw value. -/
def PyVal.toVal : PyVal → Val
  | .pnone => .vnone
  | .pv n => .atom n

/-- Ops (`Op` in `model.py`).  Modelled from the spec: a named, versioned
function; structural ops are invoked on the wrapped inputs, user ops on the
unwrapped raw values.  `outSig` models the output names and type annotations
recovered by `parse_returns` from the function signature.  `f` returns the
ordered list of outputs together with the post-invocation values of the named
inputs — the second component models in-place mutation of the inputs (it is
ignored for structural ops). -/
structure Op where
  name : String
  version : Nat
  structural : Bool
  outSig : List (String × Ty)
  f : List (String × Val) → List Val × List (String × Val)

/-- `op.get_call_history_id(wrapped_inputs)`: history hash of the op identity
and the keyed input hids. -/
def Op.getCallHistoryId (op : Op) (wrappedInputs : List (String × Ref)) : Id :=
  Id.callHid op.name op.version
    (chainNamedIds (wrappedInputs.map fun kv => (kv.1, kv.2.hid)))

/-- `op.get_call_content_id(wrapped_inputs)`: content-level hash of the op
identity and the keyed input cids. -/
def Op.getCallContentId (op : Op) (wrappedInputs : List (String × Ref)) : Id :=
  Id.callCid op.name op.version
    (chainNamedIds (wrappedInputs.map fun kv => (kv.1, kv.2.cid)))

/-- `op.get_output_history_ids`: each named output's hid is derived from the
call's hid and the output name. -/
def Op.getOutputHistoryIds (callHistoryId : Id) (outputNames : List String) :
    List (String × Id) :=
  outputNames.map fun n => (n, Id.outputHid callHistoryId n)

/-- `op.detached()`: the op descriptor stored in the `ops` table; the
underlying function is stripped. -/
def Op.detached (op : Op) : Op :=
  { op with f := fun _ => ([], []) }

/-- An in-memory call record (`Call` in `model.py`). -/
structure Call where
  op : Op
  cid : Id
  hid : Id
  inputs : List (String × Ref)
  outputs : List (String × Ref)

/-- The durable row of a call: op name, call cid/hid, and the named
input/output refs as (name, hid, cid) triples — the provenance ledger keeps
both identities of every referenced value. -/
structure CallData where
  opName : String
  cid : Id
  hid : Id
  inputRows : List (String × Id × Id)
  outputRows : List (String × Id × Id)

/-- Project a call onto its durable row. -/
def CallData.ofCall (c : Call) : CallData :=
  { opName := c.op.name
    cid := c.cid
    hid := c.hid
    inputRows := c.inputs.map fun kv => (kv.1, kv.2.hid, kv.2.cid)
    outputRows := c.outputs.map fun kv => (kv.1, kv.2.hid, kv.2.cid) }

/-! ### Key-value tables -/

/-- A key-value table, the contents of one persistent or cached store. -/
def Table (κ β : Type) : Type := List (κ × β)

namespace Table

variable {κ β : Type} [DecidableEq κ]

/-- Point lookup. -/
def get? : Table κ β → κ → Option β
  | [], _ => none
  | (k, v) :: rest, k' => if k = k' then some v else get? rest k'

/-- Remove every binding of a key. -/
def eraseKey : Table κ β → κ → Table κ β
  | [], _ => []
  | (k', v) :: rest, k => if k' = k then eraseKey rest k else (k', v) :: eraseKey rest k

/-- Point write (replaces any previous binding of the key). -/
def set (t : Table κ β) (k : κ) (v : β) : Table κ β :=
  (k, v) :: t.eraseKey k

/-- Existence check. -/
def hasKey (t : Table κ β) (k : κ) : Bool := (t.get? k).isSome

/-- Delete a key. -/
def dropKey (t : Table κ β) (k : κ) : Table κ β :=
  t.eraseKey k

/-- All keys of the table. -/
def keys (t : Table κ β) : List κ := t.map Prod.fst

/-- All values of the table. -/
def values (t : Table κ β) : List β := t.map Prod.snd

end Table

/-! ### Cached table layer

Modelled from the spec (§4.1 "Cached table layer"): an in-memory write-back
cache in front of a persistent table.  Reads fall through to the persistent
table on miss and populate the cache; writes are buffered in the cache and
marked dirty; `commit` flushes dirty entries and clears the dirty markers. -/

/-- A cached key-value store (`CachedDictStorage`, and with `β := CallData`
also `CachedCallStorage` whose `cache`/`persistent` components are the
`call_cache` and the durable `call_storage`). -/
structure CachedDict (κ β : Type) where
  cache : Table κ β
  persistent : Table κ β
  dirty : List κ

namespace CachedDict

variable {κ β : Type} [DecidableEq κ]

/-- `get(key)`: cached value if present, else fall through to the persistent
table and populate the cache.  Returns the (optional) value and the updated
store. -/
def get? (s : CachedDict κ β) (k : κ) : Option β × CachedDict κ β :=
  match s.cache.get? k with
  | some v => (some v, s)
  | none =>
    match s.persistent.get? k with
    | some v => (some v, { s with cache := s.cache.set k v })
    | none => (none, s)

/-- `set(key, value)`: write into the cache and mark dirty; not yet durable. -/
def set (s : CachedDict κ β) (k : κ) (v : β) : CachedDict κ β :=
  { s with cache := s.cache.set k v
           dirty := if k ∈ s.dirty then s.dirty else k :: s.dirty }

/-- `exists(key)`: present in the cache or the persistent table. -/
def hasKey (s : CachedDict κ β) (k : κ) : Bool :=
  s.cache.hasKey k || s.persistent.hasKey k

/-- `drop(key)`: remove from the cache and the persistent table. -/
def drop (s : CachedDict κ β) (k : κ) : CachedDict κ β :=
  { s with cache := s.cache.dropKey k, persistent := s.persistent.dropKey k }

/-- `commit`: write all dirty cache entries to the persistent table, then
clear the dirty markers. -/
def commit (s : CachedDict κ β) : CachedDict κ β :=
  { s with
    persistent := s.dirty.foldl (fun p k =>
      match s.cache.get? k with
      | some v => p.set k v
      | none => p) s.persistent
    dirty := [] }

end CachedDict

/-! ### Errors -/

/-- Failure kinds of the engine (§7 of the spec).
* `keyNotFound` — `KeyNotFound`/`ShapeNotFound` (unknown hid/cid);
* `sideEffect` — `SideEffectError` (a user op mutated a shared input; raised
  as `ValueError` in the Python source);
* `contextState` — `ContextStateError` (provenance/reachability query while a
  write context is open; raised as `NotImplementedError` in the source);
* `notImplemented` — `UnsupportedStructureError` and other
  `NotImplementedError` paths;
* `typeErr` — a raw value does not match its declared type;
* `assertFailed` — a failed internal assertion;
* `insufficientFuel` — artifact of the embedding: the recursion bound of this
  run was exhausted (never raised by the modelled code given enough fuel). -/
inductive Err where
  | keyNotFound
  | sideEffect
  | contextState
  | notImplemented
  | typeErr
  | assertFailed
  | insufficientFuel
deriving DecidableEq

/-! ### The storage engine state -/

/-- The state of a `Storage` engine: the four cached tables
(`calls`, `atoms`, `shapes`, `ops`), the global "is a write context open"
flag (`Context.current_context is not None`), and `invoked`, a ghost log of
the call hids at which an op's underlying function was actually executed
(instrumentation only — no modelled code reads it). -/
structure Storage where
  calls : CachedDict Id CallData
  atoms : CachedDict Id PyVal
  shapes : CachedDict Id Ref
  ops : CachedDict String Op
  inContext : Bool
  invoked : List Id

/-- A storage with empty tables and no open context. -/
def Storage.empty : Storage :=
  { calls := ⟨[], [], []⟩, atoms := ⟨[], [], []⟩, shapes := ⟨[], [], []⟩
    ops := ⟨[], [], []⟩, inContext := false, invoked := [] }

/-! ### Ref persistence: `save_ref` / `load_ref` -/

mutual

/-- `Storage.save_ref` (storage.py:53-64): idempotent on the ref's hid; an
atom stores its serialized payload under `atoms[cid]` and its detached shape
under `shapes[hid]`; a list stores its shape and recursively saves every
child. -/
def Storage.saveRef (σ : Storage) (r : Ref) : Storage :=
  if σ.shapes.hasKey r.hid then σ  -- ensure idempotence
  else
    match r with
    | .atom cid hid inM obj =>
      { σ with atoms := σ.atoms.set cid (serialize obj)
               shapes := σ.shapes.set hid (Ref.atom cid hid inM obj).detached }
    | .list cid hid inM elts =>
      Storage.saveRefList
        { σ with shapes := σ.shapes.set hid (Ref.list cid hid inM elts).shape }
        elts

/-- The `for elt in ref: save_ref(elt)` loop of `save_ref`. -/
def Storage.saveRefList : Storage → List Ref → Storage
  | σ, [] => σ
  | σ, r :: rs => Storage.saveRefList (σ.saveRef r) rs

end

mutual

/-- `Storage.load_ref` (storage.py:66-79): look up the shape by hid.  An
atom shape is returned as-is when `lazy`, else attached with the payload
fetched from `atoms[cid]`.  For a list shape the children are recursively
loaded — and then, exactly as in the source (line 77,
`return shape.attached(obj=shape.obj)`), the loaded children are discarded
and the shape's own children are attached instead. -/
def Storage.loadRef : Nat → Storage → Id → Bool → Except Err Ref × Storage
  | 0, σ, _, _ => (.error .insufficientFuel, σ)
  | fuel + 1, σ, hid, lazy =>
    match σ.shapes.get? hid with
    | (none, shapes') => (.error .keyNotFound, { σ with shapes := shapes' })
    | (some (.atom cid h inM obj), shapes') =>
      if lazy then
        (.ok (Ref.atom cid h inM obj).shallowCopy, { σ with shapes := shapes' })
      else
        match ({ σ with shapes := shapes' } : Storage).atoms.get? cid with
        | (none, atoms') =>
          (.error .keyNotFound, { σ with shapes := shapes', atoms := atoms' })
        | (some bytes, atoms') =>
          (.ok ((Ref.atom cid h inM obj).attachedAtom (deserialize bytes)),
           { σ with shapes := shapes', atoms := atoms' })
    | (some (.list cid h inM elts), shapes') =>
      match Storage.loadRefChildren fuel { σ with shapes := shapes' } elts lazy with
      | (.error e, σ'') => (.error e, σ'')
      | (.ok _loaded, σ'') =>
        (.ok ((Ref.list cid h inM elts).attachedList elts), σ'')

/-- The `for elt in shape: load_ref(elt.hid, lazy)` loop of `load_ref`. -/
def Storage.loadRefChildren :
    Nat → Storage → List Ref → Bool → Except Err (List Ref) × Storage
  | 0, σ, _, _ => (.error .insufficientFuel, σ)
  | _ + 1, σ, [], _ => (.ok [], σ)
  | fuel + 1, σ, e :: es, lazy =>
    match Storage.loadRef fuel σ e.hid lazy with
    | (.error er, σ') => (.error er, σ')
    | (.ok r, σ') =>
      match Storage.loadRefChildren fuel σ' es lazy with
      | (.error er, σ'') => (.error er, σ'')
      | (.ok rs, σ'') => (.ok (r :: rs), σ'')

end

/-! ### The durable call ledger -/

/-- The per-ref rows of one call in the ledger (each row carries both
identities of the referenced value). -/
def CallData.refRows (c : CallData) : List (String × Id × Id) :=
  c.inputRows ++ c.outputRows

/-- All hids appearing as an input or output hid of a call in the given
(durable) call table — the `ref_history_id` column of
`call_storage.get_df()`. -/
def refHidsInCalls (rows : Table Id CallData) : List Id :=
  rows.flatMap fun kv => kv.2.refRows.map fun r => r.2.1

/-- All cids appearing as an input or output cid of a call in the given
(durable) call table — the `ref_content_id` column of
`call_storage.get_df()`. -/
def refCidsInCalls (rows : Table Id CallData) : List Id :=
  rows.flatMap fun kv => kv.2.refRows.map fun r => r.2.2

/-- `call_storage.exists_ref_hid`: some durable call references the hid.
Modelled from the spec: the verification used by `_drop_ref_hid`. -/
def existsRefHid (rows : Table Id CallData) (hid : Id) : Prop :=
  hid ∈ refHidsInCalls rows

instance (rows : Table Id CallData) (hid : Id) :
    Decidable (existsRefHid rows hid) := by
  unfold existsRefHid; infer_instance

/-- `call_storage.get_creator_hids`: the durable calls having one of the
given ref hids among their outputs.  Modelled from the spec: `get_creators`
finds the calls that produced the given refs. -/
def creatorCallHids (rows : Table Id CallData) (refHids : List Id) : List Id :=
  (rows.filter fun kv =>
    kv.2.outputRows.any fun r => decide (r.2.1 ∈ refHids)).map Prod.fst

/-- `call_storage.get_consumer_hids`: the durable calls having one of the
given ref hids among their inputs.  Modelled from the spec: `get_consumers`
finds the calls that consume the given refs. -/
def consumerCallHids (rows : Table Id CallData) (refHids : List Id) : List Id :=
  (rows.filter fun kv =>
    kv.2.inputRows.any fun r => decide (r.2.1 ∈ refHids)).map Prod.fst

/-- `call_storage.get_dependents` restricted to what `drop_calls` uses.
Modelled from the spec (the spec does not fix its semantics): one step of
dependency — the durable calls consuming any output of the given calls.  The
frame property of `drop_calls` does not depend on this choice. -/
def dependentCallHids (rows : Table Id CallData) (callHids : List Id) : List Id :=
  let outHids := (rows.filter fun kv => decide (kv.1 ∈ callHids)).flatMap
    fun kv => kv.2.outputRows.map fun r => r.2.1
  consumerCallHids rows outHids

/-! ### Calls interface -/

/-- `Storage.exists_call` (storage.py:117-118): present in the call cache or
the durable call table. -/
def Storage.existsCall (σ : Storage) (hid : Id) : Bool :=
  σ.calls.hasKey hid

/-- `Storage.save_call` (storage.py:120-127): no-op if the call hid is
already known; otherwise register the op descriptor if unseen, save every
input and output ref, and write the call row (into the cache, marked
dirty). -/
def Storage.saveCall (σ : Storage) (c : Call) : Storage :=
  if σ.calls.hasKey c.hid then σ
  else
    let σ₁ :=
      if σ.ops.hasKey c.op.name then σ
      else { σ with ops := σ.ops.set c.op.name c.op.detached }
    let σ₂ := Storage.saveRefList σ₁ ((c.inputs ++ c.outputs).map Prod.snd)
    { σ₂ with calls := σ₂.calls.set c.hid (CallData.ofCall c) }

/-- The `{k: load_ref(v, lazy)}` comprehensions of `get_call`, over the
(name, hid, cid) rows of the stored call. -/
def Storage.loadRefRows (fuel : Nat) :
    Storage → List (String × Id × Id) → Bool →
    Except Err (List (String × Ref)) × Storage
  | σ, [], _ => (.ok [], σ)
  | σ, (k, hid, _cid) :: rest, lazy =>
    match σ.loadRef fuel hid lazy with
    | (.error e, σ') => (.error e, σ')
    | (.ok r, σ') =>
      match Storage.loadRefRows fuel σ' rest lazy with
      | (.error e, σ'') => (.error e, σ'')
      | (.ok rs, σ'') => (.ok ((k, r) :: rs), σ'')

/-- `Storage.get_call` (storage.py:129-140): read the call row from the call
cache, else from the durable table; fetch the op descriptor; load every
input and output ref with the given laziness. -/
def Storage.getCall (fuel : Nat) (σ : Storage) (hid : Id) (lazy : Bool) :
    Except Err Call × Storage :=
  let callData? :=
    match σ.calls.cache.get? hid with
    | some d => some d
    | none => σ.calls.persistent.get? hid
  match callData? with
  | none => (.error .keyNotFound, σ)
  | some data =>
    match σ.ops.get? data.opName with
    | (none, ops') => (.error .keyNotFound, { σ with ops := ops' })
    | (some op, ops') =>
      match Storage.loadRefRows fuel { σ with ops := ops' } data.inputRows lazy with
      | (.error e, σ₂) => (.error e, σ₂)
      | (.ok ins, σ₂) =>
        match σ₂.loadRefRows fuel data.outputRows lazy with
        | (.error e, σ₃) => (.error e, σ₃)
        | (.ok outs, σ₃) =>
          (.ok { op := op, cid := data.cid, hid := data.hid
                 inputs := ins, outputs := outs }, σ₃)

/-- `Storage.drop_calls` (storage.py:142-151): optionally extend the hid set
with dependent calls, then drop each hid from the call cache (when present)
and from the durable call table. -/
def Storage.dropCalls (σ : Storage) (hids : List Id) (deleteDependents : Bool) :
    Storage :=
  let hids' :=
    if deleteDependents then hids ++ dependentCallHids σ.calls.persistent hids
    else hids
  let σ₁ := hids'.foldl (fun σ h =>
    if σ.calls.cache.hasKey h then
      { σ with calls := { σ.calls with cache := σ.calls.cache.dropKey h } }
    else σ) σ
  hids'.foldl (fun σ h =>
    { σ with calls := { σ.calls with persistent := σ.calls.persistent.dropKey h } }) σ₁

/-! ### Cache commit -/

/-- `Storage.commit` (storage.py:160-165): flush the dirty entries of all
four cached tables. -/
def Storage.commitAll (σ : Storage) : Storage :=
  { σ with atoms := σ.atoms.commit, shapes := σ.shapes.commit
           ops := σ.ops.commit, calls := σ.calls.commit }

/-! ### Provenance and reachability queries -/

/-- The `get_call(..., lazy=True)` loop of `get_creators`/`get_consumers`. -/
def Storage.getCallsList (fuel : Nat) :
    Storage → List Id → Bool → Except Err (List Call) × Storage
  | σ, [], _ => (.ok [], σ)
  | σ, h :: hs, lazy =>
    match σ.getCall fuel h lazy with
    | (.error e, σ') => (.error e, σ')
    | (.ok c, σ') =>
      match Storage.getCallsList fuel σ' hs lazy with
      | (.error e, σ'') => (.error e, σ'')
      | (.ok cs, σ'') => (.ok (c :: cs), σ'')

/-- `Storage.get_creators` (storage.py:170-174): disallowed while a write
context is open; otherwise the calls that produced the given ref hids,
loaded lazily. -/
def Storage.getCreators (fuel : Nat) (σ : Storage) (refHids : List Id) :
    Except Err (List Call) × Storage :=
  if σ.inContext then (.error .contextState, σ)
  else σ.getCallsList fuel (creatorCallHids σ.calls.persistent refHids) true

/-- `Storage.get_consumers` (storage.py:176-180): disallowed while a write
context is open; otherwise the calls that consume the given ref hids,
loaded lazily. -/
def Storage.getConsumers (fuel : Nat) (σ : Storage) (refHids : List Id) :
    Except Err (List Call) × Storage :=
  if σ.inContext then (.error .contextState, σ)
  else σ.getCallsList fuel (consumerCallHids σ.calls.persistent refHids) true

/-- `Storage.get_orphans` (storage.py:182-191): disallowed while a write
context is open; otherwise the hids present in the durable `shapes` table
that appear as no input or output hid of any durable call. -/
def Storage.getOrphans (σ : Storage) : Except Err (List Id) :=
  if σ.inContext then .error .contextState
  else .ok ((σ.shapes.persistent.keys).filter fun h =>
    h ∉ refHidsInCalls σ.calls.persistent)

/-- `Storage.get_unreferenced_cids` (storage.py:193-203): disallowed while a
write context is open; otherwise the cids present in the durable `atoms`
table that appear in no durable call and in no durable shape. -/
def Storage.getUnreferencedCids (σ : Storage) : Except Err (List Id) :=
  if σ.inContext then .error .contextState
  else .ok ((σ.atoms.persistent.keys).filter fun c =>
    c ∉ refCidsInCalls σ.calls.persistent ∧
    c ∉ (σ.shapes.persistent.values).map Ref.cid)

/-! ### Garbage collection -/

/-- `Storage._drop_ref_hid` (storage.py:81-88): optionally verify that no
durable call references the hid, then drop it from the `shapes` table. -/
def Storage.dropRefHid (σ : Storage) (hid : Id) (verify : Bool) :
    Except Err Storage :=
  if verify ∧ existsRefHid σ.calls.persistent hid then .error .assertFailed
  else .ok { σ with shapes := σ.shapes.drop hid }

/-- `Storage._drop_ref` (storage.py:90-97): optionally verify that no durable
shape carries the cid, then drop it from the `atoms` table. -/
def Storage.dropRefCid (σ : Storage) (cid : Id) (verify : Bool) :
    Except Err Storage :=
  if verify ∧ cid ∈ (σ.shapes.persistent.values).map Ref.cid then
    .error .assertFailed
  else .ok { σ with atoms := σ.atoms.drop cid }

/-- The first loop of `cleanup_refs`: drop each orphaned hid
(`_drop_ref_hid` with its default `verify=False`). -/
def Storage.dropRefHids : Storage → List Id → Except Err Storage
  | σ, [] => .ok σ
  | σ, h :: hs =>
    match σ.dropRefHid h false with
    | .error e => .error e
    | .ok σ' => Storage.dropRefHids σ' hs

/-- The second loop of `cleanup_refs`: drop each unreferenced cid
(`_drop_ref` with its default `verify=False`). -/
def Storage.dropRefCids : Storage → List Id → Except Err Storage
  | σ, [] => .ok σ
  | σ, c :: cs =>
    match σ.dropRefCid c false with
    | .error e => .error e
    | .ok σ' => Storage.dropRefCids σ' cs

/-- `Storage.cleanup_refs` (storage.py:99-112): two-phase sweep — first drop
all orphaned hids from `shapes`, then drop all now-unreferenced cids from
`atoms`. -/
def Storage.cleanupRefs (σ : Storage) : Except Err Storage :=
  match σ.getOrphans with
  | .error e => .error e
  | .ok orphans =>
    match Storage.dropRefHids σ orphans with
    | .error e => .error e
    | .ok σ₁ =>
      match σ₁.getUnreferencedCids with
      | .error e => .error e
      | .ok unref => Storage.dropRefCids σ₁ unref

/-! ### Unwrapping values -/

mutual

/-- `unwrap` on a raw value: `recurse_on_ref_collections(_unwrap_atom, obj)`.
Modelled from the spec: "inputs are unwrapped to raw values" — the recursion
descends into Python lists and refs. -/
def Storage.unwrapVal (fuel : Nat) (σ : Storage) : Val → Except Err Val × Storage
  | .vnone => (.ok .vnone, σ)
  | .atom n => (.ok (.atom n), σ)
  | .vlist es =>
    match Storage.unwrapVals fuel σ es with
    | (.error e, σ') => (.error e, σ')
    | (.ok es', σ') => (.ok (.vlist es'), σ')
  | .ref r => Storage.unwrapRef fuel σ r

/-- `_unwrap_atom` (storage.py:208-214) for atoms, extended structurally to
list refs: a detached atom is loaded eagerly first; a list ref is unwrapped
into a raw Python list of its unwrapped children. -/
def Storage.unwrapRef (fuel : Nat) (σ : Storage) : Ref → Except Err Val × Storage
  | .atom _cid _hid true obj => (.ok obj.toVal, σ)
  | .atom cid hid false obj =>
    match σ.loadRef fuel (Ref.atom cid hid false obj).hid false with
    | (.error e, σ') => (.error e, σ')
    | (.ok loaded, σ') =>
      match loaded with
      | .atom _ _ _ o => (.ok o.toVal, σ')
      | _ => (.error .notImplemented, σ')
  | .list _ _ _ elts =>
    match Storage.unwrapRefs fuel σ elts with
    | (.error e, σ') => (.error e, σ')
    | (.ok es', σ') => (.ok (.vlist es'), σ')

/-- `unwrap` over the elements of a raw Python list. -/
def Storage.unwrapVals (fuel : Nat) (σ : Storage) :
    List Val → Except Err (List Val) × Storage
  | [] => (.ok [], σ)
  | v :: vs =>
    match Storage.unwrapVal fuel σ v with
    | (.error e, σ') => (.error e, σ')
    | (.ok v', σ') =>
      match Storage.unwrapVals fuel σ' vs with
      | (.error e, σ'') => (.error e, σ'')
      | (.ok vs', σ'') => (.ok (v' :: vs'), σ'')

/-- `unwrap` over the children of a list ref. -/
def Storage.unwrapRefs (fuel : Nat) (σ : Storage) :
    List Ref → Except Err (List Val) × Storage
  | [] => (.ok [], σ)
  | r :: rs =>
    match Storage.unwrapRef fuel σ r with
    | (.error e, σ') => (.error e, σ')
    | (.ok v', σ') =>
      match Storage.unwrapRefs fuel σ' rs with
      | (.error e, σ'') => (.error e, σ'')
      | (.ok vs', σ'') => (.ok (v' :: vs'), σ'')

end

/-- The `{k: unwrap(v)}` comprehension over the wrapped inputs of a user op
call. -/
def Storage.unwrapInputs (fuel : Nat) :
    Storage → List (String × Ref) → Except Err (List (String × Val)) × Storage
  | σ, [] => (.ok [], σ)
  | σ, (k, r) :: rest =>
    match Storage.unwrapRef fuel σ r with
    | (.error e, σ') => (.error e, σ')
    | (.ok v, σ') =>
      match Storage.unwrapInputs fuel σ' rest with
      | (.error e, σ'') => (.error e, σ'')
      | (.ok vs, σ'') => (.ok ((k, v) :: vs), σ'')

/-! ### Structural ops -/

/-- Point lookup in a name-keyed association list (Python `dict[k]`). -/
def lookupStr {α : Type} : List (String × α) → String → Option α
  | [], _ => none
  | (k, v) :: rest, k' => if k = k' then some v else lookupStr rest k'

/-- The function of `__make_list__`.  Modelled from the spec: the structural
"construct sequence from elements" builder receives the wrapped element refs
`elts_0, elts_1, …` and returns a `ListRef` wrapping them, whose cid is the
hash of the ordered child cids; its provisional hid (overridden by the
caller via `with_hid`) is seeded from the cid. -/
def makeListF (inputs : List (String × Val)) : List Val × List (String × Val) :=
  let elts := inputs.filterMap fun kv =>
    match kv.2 with
    | .ref r => some r
    | _ => none
  let cid := Id.listCid (chainIds (elts.map Ref.cid))
  ([Val.ref (Ref.list cid (Id.rawSeed cid) true elts)], inputs)

/-- The function of `__get_item__`.  Modelled from the spec: the structural
"get element at index" accessor receives the wrapped list (`obj`) and the
wrapped index (`attr`) and returns the element ref at that index. -/
def getItemF (inputs : List (String × Val)) : List Val × List (String × Val) :=
  match lookupStr inputs "obj", lookupStr inputs "attr" with
  | some (.ref (.list _ _ _ elts)), some (.ref (.atom _ _ _ (.pv i))) =>
    match elts[i]? with
    | some e => ([Val.ref e], inputs)
    | none => ([], inputs)
  | _, _ => ([], inputs)

/-- The structural sequence-builder op (`__make_list__` in `model.py`).
Modelled from the spec. -/
def __make_list__ : Op :=
  { name := "__make_list__", version := 0, structural := true
    outSig := [("output_0", Ty.atomT)], f := makeListF }

/-- The structural element-accessor op (`__get_item__` in `model.py`).
Modelled from the spec. -/
def __get_item__ : Op :=
  { name := "__get_item__", version := 0, structural := true
    outSig := [("output_0", Ty.atomT)], f := getItemF }

/-! ### Call memoization: `construct` / `destruct` / `call_internal`

The three operations are mutually recursive (storage.py:252-351).  Every
function takes a fuel bound and decrements it on entry; with enough fuel the
fuel-exhaustion branch is never taken. -/

mutual

/-- `Storage.construct` (storage.py:252-263): a `Ref` is returned unchanged
with no calls; under an atomic type a raw value is wrapped as a fresh
`AtomRef`; under a list type the structural builder `__make_list__` is
invoked through `call_internal` on the elements, the builder call is
appended to the generated calls, and the builder call's (first) output is
the constructed ref. -/
def Storage.construct :
    Nat → Storage → Ty → Val → Except Err (Ref × List Call) × Storage
  | 0, σ, _, _ => (.error .insufficientFuel, σ)
  | fuel + 1, σ, tp, val =>
    match val with
    | .ref r => (.ok (r, []), σ)
    | _ =>
      match tp with
      | .atomT =>
        match val.toRaw? with
        | some raw => (.ok (wrapAtom raw none, []), σ)
        | none => (.error .notImplemented, σ)
      | .listT eltTp =>
        match val with
        | .vlist elts =>
          -- get_struct_inputs / get_struct_tps for ListType
          let structInputs := elts.enum.map fun p => (s!"elts_{p.1}", p.2)
          let structTps := structInputs.map fun kv => (kv.1, eltTp)
          match Storage.callInternal fuel σ __make_list__ structInputs structTps with
          | (.error e, σ') => (.error e, σ')
          | (.ok (_res, mainCall, calls), σ') =>
            let calls' := calls ++ [mainCall]
            match mainCall.outputs with
            | [] => (.error .keyNotFound, σ')
            | (_, outputRef) :: _ => (.ok (outputRef, calls'), σ')
        | _ => (.error .typeErr, σ)

/-- The `for k, v in inputs.items(): construct(input_tps[k], v)` loop of
`call_internal`, accumulating the wrapped inputs and the generated
structural calls in order. -/
def Storage.constructInputs :
    Nat → Storage → List (String × Ty) → List (String × Val) →
    Except Err (List (String × Ref) × List Call) × Storage
  | 0, σ, _, _ => (.error .insufficientFuel, σ)
  | fuel + 1, σ, inputTps, inputs =>
    match inputs with
    | [] => (.ok ([], []), σ)
    | (k, v) :: rest =>
      match lookupStr inputTps k with
      | none => (.error .keyNotFound, σ)
      | some tp =>
        match Storage.construct fuel σ tp v with
        | (.error e, σ') => (.error e, σ')
        | (.ok (r, structCalls), σ') =>
          match Storage.constructInputs fuel σ' inputTps rest with
          | (.error e, σ'') => (.error e, σ'')
          | (.ok (ws, calls), σ'') =>
            (.ok ((k, r) :: ws, structCalls ++ calls), σ'')

/-- The `{k: construct(input_tps[k], v)[0].cid for k, v in raw_values}`
comprehension of the side-effect guard (storage.py:326): only each
constructed ref's cid is kept, the generated calls are discarded. -/
def Storage.cidsAfter :
    Nat → Storage → List (String × Ty) → List (String × Val) →
    Except Err (List (String × Id)) × Storage
  | 0, σ, _, _ => (.error .insufficientFuel, σ)
  | fuel + 1, σ, inputTps, postVals =>
    match postVals with
    | [] => (.ok [], σ)
    | (k, v) :: rest =>
      match lookupStr inputTps k with
      | none => (.error .keyNotFound, σ)
      | some tp =>
        match Storage.construct fuel σ tp v with
        | (.error e, σ') => (.error e, σ')
        | (.ok (r, _calls), σ') =>
          match Storage.cidsAfter fuel σ' inputTps rest with
          | (.error e, σ'') => (.error e, σ'')
          | (.ok cs, σ'') => (.ok ((k, r.cid) :: cs), σ'')

/-- The output-wrapping loop of `call_internal` (storage.py:337-349): a
returned `Ref` only has its hid overridden; a raw value of atomic declared
type is wrapped as an `AtomRef` with the derived output hid; a raw value of
composite type is `construct`-ed (the auxiliary calls of this construct are
discarded, exactly as by `start, _ = self.construct(...)` on line 345),
re-hidded, then `destruct`-ed, collecting the destructuring calls. -/
def Storage.wrapOutputs :
    Nat → Storage → List (String × Ty) → List (String × Id) →
    List (String × Val) →
    Except Err (List (String × Ref) × List Call) × Storage
  | 0, σ, _, _, _ => (.error .insufficientFuel, σ)
  | fuel + 1, σ, outputTps, outputHids, outs =>
    match outs with
    | [] => (.ok ([], []), σ)
    | (k, v) :: rest =>
      match lookupStr outputHids k with
      | none => (.error .keyNotFound, σ)
      | some hid =>
        match v with
        | .ref r =>
          match Storage.wrapOutputs fuel σ outputTps outputHids rest with
          | (.error e, σ') => (.error e, σ')
          | (.ok (ws, calls), σ') => (.ok ((k, r.withHid hid) :: ws, calls), σ')
        | _ =>
          match lookupStr outputTps k with
          | none => (.error .keyNotFound, σ)
          | some .atomT =>
            match v.toRaw? with
            | none => (.error .notImplemented, σ)
            | some raw =>
              match Storage.wrapOutputs fuel σ outputTps outputHids rest with
              | (.error e, σ') => (.error e, σ')
              | (.ok (ws, calls), σ') =>
                (.ok ((k, wrapAtom raw (some hid)) :: ws, calls), σ')
          | some tp =>
            match Storage.construct fuel σ tp v with
            | (.error e, σ') => (.error e, σ')
            | (.ok (start, _startCalls), σ') =>
              match Storage.destruct fuel σ' (start.withHid hid) tp with
              | (.error e, σ'') => (.error e, σ'')
              | (.ok (final, callsForOutput), σ'') =>
                match Storage.wrapOutputs fuel σ'' outputTps outputHids rest with
                | (.error e, σ₃) => (.error e, σ₃)
                | (.ok (ws, calls), σ₃) =>
                  (.ok ((k, final) :: ws, callsForOutput ++ calls), σ₃)

/-- `Storage.destruct` (storage.py:265-290): an atom is returned unchanged;
for a list ref, each element is re-derived through a structural
`__get_item__` call (so that it carries the correct provenance hid) and
recursively destructured; the result is an in-memory list ref with the same
cid/hid over the corrected elements. -/
def Storage.destruct :
    Nat → Storage → Ref → Ty → Except Err (Ref × List Call) × Storage
  | 0, σ, _, _ => (.error .insufficientFuel, σ)
  | fuel + 1, σ, ref, tp =>
    match ref with
    | .atom _ _ _ _ => (.ok (ref, []), σ)
    | .list cid hid inM elts =>
      match tp with
      | .listT eltTp =>
        match Storage.destructElts fuel σ (Ref.list cid hid inM elts) eltTp elts 0 with
        | (.error e, σ') => (.error e, σ')
        | (.ok (newElts, calls), σ') =>
          (.ok (Ref.list cid hid true newElts, calls), σ')
      | .atomT => (.error .assertFailed, σ)  -- assert isinstance(tp, ListType)

/-- The per-element loop of `destruct`: invoke `__get_item__` on
`(obj := the parent ref, attr := the index)`, take its `output_0`, recurse
into it, and accumulate the calls (the item call before its element's
subcalls). -/
def Storage.destructElts :
    Nat → Storage → Ref → Ty → List Ref → Nat →
    Except Err (List Ref × List Call) × Storage
  | 0, σ, _, _, _, _ => (.error .insufficientFuel, σ)
  | fuel + 1, σ, parent, eltTp, elts, i =>
    match elts with
    | [] => (.ok ([], []), σ)
    | _elt :: rest =>
      match Storage.callInternal fuel σ __get_item__
          [("obj", Val.ref parent), ("attr", Val.atom i)]
          [("obj", eltTp), ("attr", Ty.atomT)] with
      | (.error e, σ') => (.error e, σ')
      | (.ok (getitemOuts, itemCall, _), σ') =>
        match lookupStr getitemOuts "output_0" with
        | none => (.error .keyNotFound, σ')
        | some newElt =>
          match Storage.destruct fuel σ' newElt eltTp with
          | (.error e, σ'') => (.error e, σ'')
          | (.ok (newElt', subcalls), σ'') =>
            match Storage.destructElts fuel σ'' parent eltTp rest (i + 1) with
            | (.error e, σ₃) => (.error e, σ₃)
            | (.ok (elts', calls'), σ₃) =>
              (.ok (newElt' :: elts', (itemCall :: subcalls) ++ calls'), σ₃)

/-- Step 4 of `call_internal` (storage.py:312-329), "execute the call if it
doesn't exist": a structural op's function is invoked directly on the
wrapped inputs; a user op's function is invoked on the unwrapped raw values
under the side-effect guard — the input cids are recomputed from the
post-invocation values (via `construct`) and compared with the cids taken
before invocation; if any changed the call aborts with the side-effect
error.  The returned list is the function's ordered returns; the ghost
`invoked` log records the call hid at the invocation itself. -/
def Storage.execCall :
    Nat → Storage → Op → List (String × Ref) → List (String × Ty) → Id →
    Except Err (List Val) × Storage
  | 0, σ, _, _, _, _ => (.error .insufficientFuel, σ)
  | fuel + 1, σ, op, wrappedInputs, inputTps, callHistoryId =>
    if op.structural then
      (.ok (op.f (wrappedInputs.map fun kv => (kv.1, Val.ref kv.2))).1,
       { σ with invoked := σ.invoked ++ [callHistoryId] })
    else
      -- guard against side effects: cids_before, then unwrap, then invoke
      match Storage.unwrapInputs fuel σ wrappedInputs with
      | (.error e, σ₂) => (.error e, σ₂)
      | (.ok rawValues, σ₂) =>
        -- `(op.f rawValues).1` are the returns; `.2` is the post-call state
        -- of the raw inputs (modelling in-place mutation)
        match Storage.cidsAfter fuel
            { σ₂ with invoked := σ₂.invoked ++ [callHistoryId] }
            inputTps (op.f rawValues).2 with
        | (.error e, σ₄) => (.error e, σ₄)
        | (.ok cidsAfterList, σ₄) =>
          if ((wrappedInputs.map fun kv => (kv.1, kv.2.cid)).filter fun kv =>
                lookupStr cidsAfterList kv.1 ≠ some kv.2).length > 0 then
            (.error .sideEffect, σ₄)
          else (.ok (op.f rawValues).1, σ₄)

/-- `Storage.call_internal` (storage.py:292-351): wrap the inputs; compute
the provenance key; on a memo hit return the stored call's outputs (loaded
lazily) without invoking the function; on a miss execute the function
(`Storage.execCall`), then wrap the outputs and return them with the
not-yet-persisted main call and all auxiliary calls. -/
def Storage.callInternal :
    Nat → Storage → Op → List (String × Val) → List (String × Ty) →
    Except Err (List (String × Ref) × Call × List Call) × Storage
  | 0, σ, _, _, _ => (.error .insufficientFuel, σ)
  | fuel + 1, σ, op, inputs, inputTps =>
    -- wrap the inputs
    match Storage.constructInputs fuel σ inputTps inputs with
    | (.error e, σ') => (.error e, σ')
    | (.ok (wrappedInputs, inputCalls), σ₁) =>
      -- check for the call
      if σ₁.existsCall (op.getCallHistoryId wrappedInputs) then
        match σ₁.getCall fuel (op.getCallHistoryId wrappedInputs) true with
        | (.error e, σ₂) => (.error e, σ₂)
        | (.ok mainCall, σ₂) => (.ok (mainCall.outputs, mainCall, inputCalls), σ₂)
      else
        -- execute the call if it doesn't exist
        match Storage.execCall fuel σ₁ op wrappedInputs inputTps
            (op.getCallHistoryId wrappedInputs) with
        | (.error e, σ₂) => (.error e, σ₂)
        | (.ok rets, σ₂) =>
          -- wrap the outputs (parse_returns: the ordered returns paired with
          -- the op's declared output names and annotations)
          match Storage.wrapOutputs fuel σ₂ op.outSig
              (Op.getOutputHistoryIds (op.getCallHistoryId wrappedInputs)
                (((op.outSig.map Prod.fst).zip rets).map Prod.fst))
              ((op.outSig.map Prod.fst).zip rets) with
          | (.error e, σ₃) => (.error e, σ₃)
          | (.ok (wrappedOutputs, outputCalls), σ₃) =>
            (.ok (wrappedOutputs,
                  { op := op, cid := op.getCallContentId wrappedInputs
                    hid := op.getCallHistoryId wrappedInputs
                    inputs := wrappedInputs, outputs := wrappedOutputs },
                  inputCalls ++ outputCalls), σ₃)

end

/-! ## Lemmas about tables and the cached layer -/

namespace Table

variable {κ β : Type} [DecidableEq κ]

theorem get?_eraseKey_self (t : Table κ β) (k : κ) :
    (t.eraseKey k).get? k = none := by
  induction t with
  | nil => rfl
  | cons kv rest ih =>
    rcases kv with ⟨k₀, v₀⟩
    rw [eraseKey]
    by_cases hk : k₀ = k
    · rw [if_pos hk]; exact ih
    · rw [if_neg hk, get?, if_neg hk]; exact ih

theorem get?_eraseKey_ne (t : Table κ β) (k k' : κ) (h : ¬ k = k') :
    (t.eraseKey k).get? k' = t.get? k' := by
  induction t with
  | nil => rfl
  | cons kv rest ih =>
    rcases kv with ⟨k₀, v₀⟩
    rw [eraseKey]
    by_cases hk : k₀ = k
    · rw [if_pos hk, get?, if_neg (fun hh => h (hk ▸ hh : k = k'))]
      exact ih
    · rw [if_neg hk, get?, get?]
      by_cases hk' : k₀ = k'
      · rw [if_pos hk', if_pos hk']
      · rw [if_neg hk', if_neg hk']; exact ih

theorem get?_set_self (t : Table κ β) (k : κ) (v : β) :
    (t.set k v).get? k = some v := by
  rw [set, get?, if_pos rfl]

theorem get?_set_ne (t : Table κ β) (k k' : κ) (v : β) (h : ¬ k = k') :
    (t.set k v).get? k' = t.get? k' := by
  rw [set, get?, if_neg h]
  exact get?_eraseKey_ne t k k' h

theorem get?_dropKey_self (t : Table κ β) (k : κ) :
    (t.dropKey k).get? k = none :=
  get?_eraseKey_self t k

theorem get?_dropKey_ne (t : Table κ β) (k k' : κ) (h : ¬ k = k') :
    (t.dropKey k).get? k' = t.get? k' :=
  get?_eraseKey_ne t k k' h

theorem mem_keys_iff_get? (t : Table κ β) (k : κ) :
    k ∈ t.keys ↔ (t.get? k).isSome := by
  induction t with
  | nil => simp [keys, get?]
  | cons kv rest ih =>
    rw [keys, List.map, List.mem_cons, get?]
    by_cases hk : kv.1 = k
    · simp [hk]
    · simp only [hk, if_false, ← ih, keys]
      constructor
      · rintro (h | h)
        · exact absurd h.symm hk
        · exact h
      · exact Or.inr

theorem hasKey_iff_get? (t : Table κ β) (k : κ) :
    t.hasKey k = (t.get? k).isSome := rfl

end Table

namespace CachedDict

variable {κ β : Type} [DecidableEq κ]

/-- The logical lookup of a cached store: the cache overrides the persistent
table. -/
def peek (s : CachedDict κ β) (k : κ) : Option β :=
  match s.cache.get? k with
  | some v => some v
  | none => s.persistent.get? k

theorem get?_fst (s : CachedDict κ β) (k : κ) : (s.get? k).1 = s.peek k := by
  rw [get?, peek]
  rcases s.cache.get? k with _ | v
  · rcases s.persistent.get? k with _ | w <;> rfl
  · rfl

theorem get?_snd_peek (s : CachedDict κ β) (k k' : κ) :
    ((s.get? k).2).peek k' = s.peek k' := by
  rw [get?]
  rcases hc : s.cache.get? k with _ | v
  · rcases hp : s.persistent.get? k with _ | w
    · rfl
    · rw [peek, peek]
      by_cases hk : k = k'
      · subst hk
        rw [Table.get?_set_self, hc, hp]
      · rw [Table.get?_set_ne _ _ _ _ hk]
  · rfl

theorem get?_snd_persistent (s : CachedDict κ β) (k : κ) :
    ((s.get? k).2).persistent = s.persistent := by
  rw [get?]
  rcases s.cache.get? k with _ | v
  · rcases s.persistent.get? k with _ | w <;> rfl
  · rfl

theorem get?_snd_dirty (s : CachedDict κ β) (k : κ) :
    ((s.get? k).2).dirty = s.dirty := by
  rw [get?]
  rcases s.cache.get? k with _ | v
  · rcases s.persistent.get? k with _ | w <;> rfl
  · rfl

theorem hasKey_eq_peek (s : CachedDict κ β) (k : κ) :
    s.hasKey k = (s.peek k).isSome := by
  rw [hasKey, peek, Table.hasKey_iff_get?, Table.hasKey_iff_get?]
  rcases s.cache.get? k with _ | v
  · rcases s.persistent.get? k with _ | w <;> rfl
  · rfl

theorem peek_set_self (s : CachedDict κ β) (k : κ) (v : β) :
    (s.set k v).peek k = some v := by
  rw [set, peek]
  simp only
  rw [Table.get?_set_self]

theorem peek_set_ne (s : CachedDict κ β) (k k' : κ) (v : β) (h : ¬ k = k') :
    (s.set k v).peek k' = s.peek k' := by
  rw [set, peek, peek]
  simp only
  rw [Table.get?_set_ne _ _ _ _ h]

theorem peek_drop_self (s : CachedDict κ β) (k : κ) :
    (s.drop k).peek k = none := by
  rw [drop, peek]
  simp only
  rw [Table.get?_dropKey_self, Table.get?_dropKey_self]

theorem peek_drop_ne (s : CachedDict κ β) (k k' : κ) (h : ¬ k = k') :
    (s.drop k).peek k' = s.peek k' := by
  rw [drop, peek, peek]
  simp only
  rw [Table.get?_dropKey_ne _ _ _ h, Table.get?_dropKey_ne _ _ _ h]

end CachedDict

/-! ## The read-only frame of the memoization engine

`call_internal` and the loaders never write a row: the only state they touch
is cache population on reads (which does not change any logical lookup) and
the ghost `invoked` log. -/

/-- Everything preserved by the read-only engine operations: the calls store
(entirely), the logical lookups, persistent rows and dirty markers of the
other three tables, and the context flag. -/
structure FrameOk (σ σ' : Storage) : Prop where
  calls_eq : σ'.calls = σ.calls
  atoms_peek : ∀ k, σ'.atoms.peek k = σ.atoms.peek k
  atoms_pers : σ'.atoms.persistent = σ.atoms.persistent
  atoms_dirty : σ'.atoms.dirty = σ.atoms.dirty
  shapes_peek : ∀ k, σ'.shapes.peek k = σ.shapes.peek k
  shapes_pers : σ'.shapes.persistent = σ.shapes.persistent
  shapes_dirty : σ'.shapes.dirty = σ.shapes.dirty
  ops_peek : ∀ k, σ'.ops.peek k = σ.ops.peek k
  ops_pers : σ'.ops.persistent = σ.ops.persistent
  ops_dirty : σ'.ops.dirty = σ.ops.dirty
  inContext_eq : σ'.inContext = σ.inContext

theorem FrameOk.refl (σ : Storage) : FrameOk σ σ := by
  constructor <;> intros <;> rfl

theorem FrameOk.trans {σ₁ σ₂ σ₃ : Storage} (h₁ : FrameOk σ₁ σ₂)
    (h₂ : FrameOk σ₂ σ₃) : FrameOk σ₁ σ₃ :=
  ⟨h₂.calls_eq.trans h₁.calls_eq,
   fun k => (h₂.atoms_peek k).trans (h₁.atoms_peek k),
   h₂.atoms_pers.trans h₁.atoms_pers, h₂.atoms_dirty.trans h₁.atoms_dirty,
   fun k => (h₂.shapes_peek k).trans (h₁.shapes_peek k),
   h₂.shapes_pers.trans h₁.shapes_pers, h₂.shapes_dirty.trans h₁.shapes_dirty,
   fun k => (h₂.ops_peek k).trans (h₁.ops_peek k),
   h₂.ops_pers.trans h₁.ops_pers, h₂.ops_dirty.trans h₁.ops_dirty,
   h₂.inContext_eq.trans h₁.inContext_eq⟩

/-- Reading an atoms entry preserves the frame. -/
theorem FrameOk.atomsGet (σ : Storage) (k : Id) :
    FrameOk σ { σ with atoms := (σ.atoms.get? k).2 } := by
  constructor <;> intros <;>
    first
      | rfl
      | exact CachedDict.get?_snd_peek _ _ _
      | exact CachedDict.get?_snd_persistent _ _
      | exact CachedDict.get?_snd_dirty _ _

/-- Reading a shapes entry preserves the frame. -/
theorem FrameOk.shapesGet (σ : Storage) (k : Id) :
    FrameOk σ { σ with shapes := (σ.shapes.get? k).2 } := by
  constructor <;> intros <;>
    first
      | rfl
      | exact CachedDict.get?_snd_peek _ _ _
      | exact CachedDict.get?_snd_persistent _ _
      | exact CachedDict.get?_snd_dirty _ _

/-- Reading an ops entry preserves the frame. -/
theorem FrameOk.opsGet (σ : Storage) (k : String) :
    FrameOk σ { σ with ops := (σ.ops.get? k).2 } := by
  constructor <;> intros <;>
    first
      | rfl
      | exact CachedDict.get?_snd_peek _ _ _
      | exact CachedDict.get?_snd_persistent _ _
      | exact CachedDict.get?_snd_dirty _ _

/-- Changing only the ghost `invoked` log preserves the frame. -/
theorem FrameOk.invokedLog (σ : Storage) (l : List Id) :
    FrameOk σ { σ with invoked := l } := by
  constructor <;> intros <;> rfl

/-- The frame of the purely reading operations: everything in `FrameOk` and
additionally the ghost `invoked` log. -/
def ReadFrame (σ σ' : Storage) : Prop :=
  FrameOk σ σ' ∧ σ'.invoked = σ.invoked

theorem ReadFrame.self (σ : Storage) : ReadFrame σ σ :=
  ⟨FrameOk.refl σ, rfl⟩

theorem ReadFrame.comp {σ₁ σ₂ σ₃ : Storage} (h₁ : ReadFrame σ₁ σ₂)
    (h₂ : ReadFrame σ₂ σ₃) : ReadFrame σ₁ σ₃ :=
  ⟨h₁.1.trans h₂.1, h₂.2.trans h₁.2⟩

theorem ReadFrame.atomsRead (σ : Storage) (k : Id) :
    ReadFrame σ { σ with atoms := (σ.atoms.get? k).2 } :=
  ⟨FrameOk.atomsGet σ k, rfl⟩

theorem ReadFrame.shapesRead (σ : Storage) (k : Id) :
    ReadFrame σ { σ with shapes := (σ.shapes.get? k).2 } :=
  ⟨FrameOk.shapesGet σ k, rfl⟩

theorem ReadFrame.opsRead (σ : Storage) (k : String) :
    ReadFrame σ { σ with ops := (σ.ops.get? k).2 } :=
  ⟨FrameOk.opsGet σ k, rfl⟩

/-- Transport a frame fact along an equation about a (result, state) pair. -/
theorem FrameOk.ofEq {ε α : Type} {σ σ' : Storage} {X : Except ε α × Storage}
    {r : Except ε α} (heq : X = (r, σ')) (h : FrameOk σ X.2) : FrameOk σ σ' := by
  rw [heq] at h; exact h

/-- Transport a read-frame fact along an equation about a (result, state)
pair. -/
theorem ReadFrame.ofRunEq {ε α : Type} {σ σ' : Storage} {X : Except ε α × Storage}
    {r : Except ε α} (heq : X = (r, σ')) (h : ReadFrame σ X.2) : ReadFrame σ σ' := by
  rw [heq] at h; exact h

/-- `load_ref` (and its child loop) only reads: it preserves the read
frame, whether it succeeds or fails. -/
theorem loadRef_readFrame (fuel : Nat) :
    (∀ σ hid lazy, ReadFrame σ (Storage.loadRef fuel σ hid lazy).2) ∧
    (∀ σ es lazy, ReadFrame σ (Storage.loadRefChildren fuel σ es lazy).2) := by
  induction fuel with
  | zero =>
    constructor
    · intro σ hid lazy; rw [Storage.loadRef]; exact ReadFrame.self σ
    · intro σ es lazy; rw [Storage.loadRefChildren]; exact ReadFrame.self σ
  | succ fuel ih =>
    constructor
    · intro σ hid lazy
      have hget := ReadFrame.shapesRead σ hid
      rw [Storage.loadRef]
      split
      next shapes' heq =>
        rw [heq] at hget; exact hget
      next cid h inM obj shapes' heq =>
        rw [heq] at hget
        split
        · exact hget
        · split
          next atoms' heq2 =>
            have hget2 := ReadFrame.atomsRead { σ with shapes := shapes' } cid
            rw [heq2] at hget2
            exact hget.comp hget2
          next bytes atoms' heq2 =>
            have hget2 := ReadFrame.atomsRead { σ with shapes := shapes' } cid
            rw [heq2] at hget2
            exact hget.comp hget2
      next cid h inM elts shapes' heq =>
        rw [heq] at hget
        split
        next e σ'' heq2 =>
          exact hget.comp (ReadFrame.ofRunEq heq2 (ih.2 _ elts lazy))
        next loaded σ'' heq2 =>
          exact hget.comp (ReadFrame.ofRunEq heq2 (ih.2 _ elts lazy))
    · intro σ es lazy
      cases es with
      | nil => rw [Storage.loadRefChildren]; exact ReadFrame.self σ
      | cons e es =>
        rw [Storage.loadRefChildren]
        split
        next er σ' heq => exact ReadFrame.ofRunEq heq (ih.1 σ _ lazy)
        next r σ' heq =>
          split
          next er σ'' heq2 =>
            exact (ReadFrame.ofRunEq heq (ih.1 σ _ lazy)).comp
              (ReadFrame.ofRunEq heq2 (ih.2 σ' es lazy))
          next rs σ'' heq2 =>
            exact (ReadFrame.ofRunEq heq (ih.1 σ _ lazy)).comp
              (ReadFrame.ofRunEq heq2 (ih.2 σ' es lazy))

/-- The row-loading loop of `get_call` preserves the read frame. -/
theorem loadRefRows_readFrame (fuel : Nat) (rows : List (String × Id × Id)) :
    ∀ σ lazy, ReadFrame σ (Storage.loadRefRows fuel σ rows lazy).2 := by
  induction rows with
  | nil => intro σ lazy; rw [Storage.loadRefRows]; exact ReadFrame.self σ
  | cons row rest ih =>
    intro σ lazy
    rcases row with ⟨k, hid, cid⟩
    rw [Storage.loadRefRows]
    split
    next e σ' heq =>
      have h1 := (loadRef_readFrame fuel).1 σ hid lazy
      rw [heq] at h1; exact h1
    next r σ' heq =>
      have h1 := (loadRef_readFrame fuel).1 σ hid lazy
      rw [heq] at h1
      split
      next e σ'' heq2 =>
        have h2 := ih σ' lazy
        rw [heq2] at h2
        exact h1.comp h2
      next rs σ'' heq2 =>
        have h2 := ih σ' lazy
        rw [heq2] at h2
        exact h1.comp h2

/-- `get_call` preserves the read frame. -/
theorem getCall_readFrame (fuel : Nat) (σ : Storage) (hid : Id) (lazy : Bool) :
    ReadFrame σ (Storage.getCall fuel σ hid lazy).2 := by
  rw [Storage.getCall]
  split
  · exact ReadFrame.self σ
  next data hdata =>
    split
    next ops' heq =>
      have h1 := ReadFrame.opsRead σ data.opName
      rw [heq] at h1; exact h1
    next op ops' heq =>
      have h1 := ReadFrame.opsRead σ data.opName
      rw [heq] at h1
      split
      next e σ₂ heq2 =>
        have h2 := loadRefRows_readFrame fuel data.inputRows { σ with ops := ops' } lazy
        rw [heq2] at h2
        exact h1.comp h2
      next ins σ₂ heq2 =>
        have h2 := loadRefRows_readFrame fuel data.inputRows { σ with ops := ops' } lazy
        rw [heq2] at h2
        split
        next e σ₃ heq3 =>
          have h3 := loadRefRows_readFrame fuel data.outputRows σ₂ lazy
          rw [heq3] at h3
          exact (h1.comp h2).comp h3
        next outs σ₃ heq3 =>
          have h3 := loadRefRows_readFrame fuel data.outputRows σ₂ lazy
          rw [heq3] at h3
          exact (h1.comp h2).comp h3

/-- The call-listing loop of the provenance queries preserves the read
frame. -/
theorem getCallsList_readFrame (fuel : Nat) (hids : List Id) :
    ∀ σ lazy, ReadFrame σ (Storage.getCallsList fuel σ hids lazy).2 := by
  induction hids with
  | nil => intro σ lazy; rw [Storage.getCallsList]; exact ReadFrame.self σ
  | cons h hs ih =>
    intro σ lazy
    rw [Storage.getCallsList]
    split
    next e σ' heq =>
      have h1 := getCall_readFrame fuel σ h lazy
      rw [heq] at h1; exact h1
    next c σ' heq =>
      have h1 := getCall_readFrame fuel σ h lazy
      rw [heq] at h1
      split
      next e σ'' heq2 =>
        have h2 := ih σ' lazy
        rw [heq2] at h2
        exact h1.comp h2
      next cs σ'' heq2 =>
        have h2 := ih σ' lazy
        rw [heq2] at h2
        exact h1.comp h2

mutual

/-- `unwrap` on a raw value preserves the read frame. -/
theorem unwrapVal_readFrame (fuel : Nat) (σ : Storage) (v : Val) :
    ReadFrame σ (Storage.unwrapVal fuel σ v).2 := by
  cases v with
  | vnone => rw [Storage.unwrapVal]; exact ReadFrame.self σ
  | atom n => rw [Storage.unwrapVal]; exact ReadFrame.self σ
  | vlist es =>
    rw [Storage.unwrapVal]
    split
    next e σ' heq =>
      have h1 := unwrapVals_readFrame fuel σ es
      rw [heq] at h1; exact h1
    next es' σ' heq =>
      have h1 := unwrapVals_readFrame fuel σ es
      rw [heq] at h1; exact h1
  | ref r =>
    rw [Storage.unwrapVal]
    exact unwrapRef_readFrame fuel σ r

/-- `_unwrap_atom` (extended to list refs) preserves the read frame. -/
theorem unwrapRef_readFrame (fuel : Nat) (σ : Storage) (r : Ref) :
    ReadFrame σ (Storage.unwrapRef fuel σ r).2 := by
  cases r with
  | atom cid hid inM obj =>
    cases inM with
    | true => rw [Storage.unwrapRef]; exact ReadFrame.self σ
    | false =>
      rw [Storage.unwrapRef]
      split
      next e σ' heq =>
        have h1 := (loadRef_readFrame fuel).1 σ (Ref.atom cid hid false obj).hid false
        rw [heq] at h1; exact h1
      next loaded σ' heq =>
        have h1 := (loadRef_readFrame fuel).1 σ (Ref.atom cid hid false obj).hid false
        rw [heq] at h1
        split <;> exact h1
  | list cid hid inM elts =>
    rw [Storage.unwrapRef]
    split
    next e σ' heq =>
      have h1 := unwrapRefs_readFrame fuel σ elts
      rw [heq] at h1; exact h1
    next es' σ' heq =>
      have h1 := unwrapRefs_readFrame fuel σ elts
      rw [heq] at h1; exact h1

/-- `unwrap` over raw list elements preserves the read frame. -/
theorem unwrapVals_readFrame (fuel : Nat) (σ : Storage) (vs : List Val) :
    ReadFrame σ (Storage.unwrapVals fuel σ vs).2 := by
  cases vs with
  | nil => rw [Storage.unwrapVals]; exact ReadFrame.self σ
  | cons v rest =>
    rw [Storage.unwrapVals]
    split
    next e σ' heq =>
      have h1 := unwrapVal_readFrame fuel σ v
      rw [heq] at h1; exact h1
    next v' σ' heq =>
      have h1 := unwrapVal_readFrame fuel σ v
      rw [heq] at h1
      split
      next e σ'' heq2 =>
        have h2 := unwrapVals_readFrame fuel σ' rest
        rw [heq2] at h2
        exact h1.comp h2
      next vs' σ'' heq2 =>
        have h2 := unwrapVals_readFrame fuel σ' rest
        rw [heq2] at h2
        exact h1.comp h2

/-- `unwrap` over list-ref children preserves the read frame. -/
theorem unwrapRefs_readFrame (fuel : Nat) (σ : Storage) (rs : List Ref) :
    ReadFrame σ (Storage.unwrapRefs fuel σ rs).2 := by
  cases rs with
  | nil => rw [Storage.unwrapRefs]; exact ReadFrame.self σ
  | cons r rest =>
    rw [Storage.unwrapRefs]
    split
    next e σ' heq =>
      have h1 := unwrapRef_readFrame fuel σ r
      rw [heq] at h1; exact h1
    next v' σ' heq =>
      have h1 := unwrapRef_readFrame fuel σ r
      rw [heq] at h1
      split
      next e σ'' heq2 =>
        have h2 := unwrapRefs_readFrame fuel σ' rest
        rw [heq2] at h2
        exact h1.comp h2
      next vs' σ'' heq2 =>
        have h2 := unwrapRefs_readFrame fuel σ' rest
        rw [heq2] at h2
        exact h1.comp h2

end

/-- The unwrap loop over the wrapped inputs preserves the read frame. -/
theorem unwrapInputs_readFrame (fuel : Nat) (refs : List (String × Ref)) :
    ∀ σ, ReadFrame σ (Storage.unwrapInputs fuel σ refs).2 := by
  induction refs with
  | nil => intro σ; rw [Storage.unwrapInputs]; exact ReadFrame.self σ
  | cons kv rest ih =>
    intro σ
    rcases kv with ⟨k, r⟩
    rw [Storage.unwrapInputs]
    split
    next e σ' heq =>
      have h1 := unwrapRef_readFrame fuel σ r
      rw [heq] at h1; exact h1
    next v σ' heq =>
      have h1 := unwrapRef_readFrame fuel σ r
      rw [heq] at h1
      split
      next e σ'' heq2 =>
        have h2 := ih σ'
        rw [heq2] at h2
        exact h1.comp h2
      next vs σ'' heq2 =>
        have h2 := ih σ'
        rw [heq2] at h2
        exact h1.comp h2

/-! The step equations of the engine at positive fuel, in the exact shape of
the definition bodies (the well-founded compilation hides them behind
`eq_def`). -/

theorem construct_succ (fuel : Nat) (σ : Storage) (tp : Ty) (v : Val) :
    Storage.construct (fuel + 1) σ tp v =
    match v with
    | .ref r => (.ok (r, []), σ)
    | _ =>
      match tp with
      | .atomT =>
        match v.toRaw? with
        | some raw => (.ok (wrapAtom raw none, []), σ)
        | none => (.error .notImplemented, σ)
      | .listT eltTp =>
        match v with
        | .vlist elts =>
          match Storage.callInternal fuel σ __make_list__
              (elts.enum.map fun p => (s!"elts_{p.1}", p.2))
              ((elts.enum.map fun p => (s!"elts_{p.1}", p.2)).map
                fun kv => (kv.1, eltTp)) with
          | (.error e, σ') => (.error e, σ')
          | (.ok (_res, mainCall, calls), σ') =>
            match mainCall.outputs with
            | [] => (.error .keyNotFound, σ')
            | (_, outputRef) :: _ => (.ok (outputRef, calls ++ [mainCall]), σ')
        | _ => (.error .typeErr, σ) := by
  rw [Storage.construct.eq_def]

theorem constructInputs_succ (fuel : Nat) (σ : Storage)
    (tps : List (String × Ty)) (ins : List (String × Val)) :
    Storage.constructInputs (fuel + 1) σ tps ins =
    match ins with
    | [] => (.ok ([], []), σ)
    | (k, v) :: rest =>
      match lookupStr tps k with
      | none => (.error .keyNotFound, σ)
      | some tp =>
        match Storage.construct fuel σ tp v with
        | (.error e, σ') => (.error e, σ')
        | (.ok (r, structCalls), σ') =>
          match Storage.constructInputs fuel σ' tps rest with
          | (.error e, σ'') => (.error e, σ'')
          | (.ok (ws, calls), σ'') =>
            (.ok ((k, r) :: ws, structCalls ++ calls), σ'') := by
  rw [Storage.constructInputs.eq_def]

theorem cidsAfter_succ (fuel : Nat) (σ : Storage)
    (tps : List (String × Ty)) (pvs : List (String × Val)) :
    Storage.cidsAfter (fuel + 1) σ tps pvs =
    match pvs with
    | [] => (.ok [], σ)
    | (k, v) :: rest =>
      match lookupStr tps k with
      | none => (.error .keyNotFound, σ)
      | some tp =>
        match Storage.construct fuel σ tp v with
        | (.error e, σ') => (.error e, σ')
        | (.ok (r, _calls), σ') =>
          match Storage.cidsAfter fuel σ' tps rest with
          | (.error e, σ'') => (.error e, σ'')
          | (.ok cs, σ'') => (.ok ((k, r.cid) :: cs), σ'') := by
  rw [Storage.cidsAfter.eq_def]

theorem wrapOutputs_succ (fuel : Nat) (σ : Storage)
    (outputTps : List (String × Ty)) (outputHids : List (String × Id))
    (outs : List (String × Val)) :
    Storage.wrapOutputs (fuel + 1) σ outputTps outputHids outs =
    match outs with
    | [] => (.ok ([], []), σ)
    | (k, v) :: rest =>
      match lookupStr outputHids k with
      | none => (.error .keyNotFound, σ)
      | some hid =>
        match v with
        | .ref r =>
          match Storage.wrapOutputs fuel σ outputTps outputHids rest with
          | (.error e, σ') => (.error e, σ')
          | (.ok (ws, calls), σ') => (.ok ((k, r.withHid hid) :: ws, calls), σ')
        | _ =>
          match lookupStr outputTps k with
          | none => (.error .keyNotFound, σ)
          | some .atomT =>
            match v.toRaw? with
            | none => (.error .notImplemented, σ)
            | some raw =>
              match Storage.wrapOutputs fuel σ outputTps outputHids rest with
              | (.error e, σ') => (.error e, σ')
              | (.ok (ws, calls), σ') =>
                (.ok ((k, wrapAtom raw (some hid)) :: ws, calls), σ')
          | some tp =>
            match Storage.construct fuel σ tp v with
            | (.error e, σ') => (.error e, σ')
            | (.ok (start, _startCalls), σ') =>
              match Storage.destruct fuel σ' (start.withHid hid) tp with
              | (.error e, σ'') => (.error e, σ'')
              | (.ok (final, callsForOutput), σ'') =>
                match Storage.wrapOutputs fuel σ'' outputTps outputHids rest with
                | (.error e, σ₃) => (.error e, σ₃)
                | (.ok (ws, calls), σ₃) =>
                  (.ok ((k, final) :: ws, callsForOutput ++ calls), σ₃) := by
  rw [Storage.wrapOutputs.eq_def]

theorem destruct_succ (fuel : Nat) (σ : Storage) (r : Ref) (tp : Ty) :
    Storage.destruct (fuel + 1) σ r tp =
    match r with
    | .atom _ _ _ _ => (.ok (r, []), σ)
    | .list cid hid inM elts =>
      match tp with
      | .listT eltTp =>
        match Storage.destructElts fuel σ (Ref.list cid hid inM elts) eltTp elts 0 with
        | (.error e, σ') => (.error e, σ')
        | (.ok (newElts, calls), σ') =>
          (.ok (Ref.list cid hid true newElts, calls), σ')
      | .atomT => (.error .assertFailed, σ) := by
  rw [Storage.destruct.eq_def]

theorem destructElts_succ (fuel : Nat) (σ : Storage) (parent : Ref) (eltTp : Ty)
    (elts : List Ref) (i : Nat) :
    Storage.destructElts (fuel + 1) σ parent eltTp elts i =
    match elts with
    | [] => (.ok ([], []), σ)
    | _elt :: rest =>
      match Storage.callInternal fuel σ __get_item__
          [("obj", Val.ref parent), ("attr", Val.atom i)]
          [("obj", eltTp), ("attr", Ty.atomT)] with
      | (.error e, σ') => (.error e, σ')
      | (.ok (getitemOuts, itemCall, _), σ') =>
        match lookupStr getitemOuts "output_0" with
        | none => (.error .keyNotFound, σ')
        | some newElt =>
          match Storage.destruct fuel σ' newElt eltTp with
          | (.error e, σ'') => (.error e, σ'')
          | (.ok (newElt', subcalls), σ'') =>
            match Storage.destructElts fuel σ'' parent eltTp rest (i + 1) with
            | (.error e, σ₃) => (.error e, σ₃)
            | (.ok (elts', calls'), σ₃) =>
              (.ok (newElt' :: elts', (itemCall :: subcalls) ++ calls'), σ₃) := by
  rw [Storage.destructElts.eq_def]

theorem execCall_succ (fuel : Nat) (σ : Storage) (op : Op)
    (wrappedInputs : List (String × Ref)) (inputTps : List (String × Ty))
    (callHistoryId : Id) :
    Storage.execCall (fuel + 1) σ op wrappedInputs inputTps callHistoryId =
    if op.structural then
      (.ok (op.f (wrappedInputs.map fun kv => (kv.1, Val.ref kv.2))).1,
       { σ with invoked := σ.invoked ++ [callHistoryId] })
    else
      match Storage.unwrapInputs fuel σ wrappedInputs with
      | (.error e, σ₂) => (.error e, σ₂)
      | (.ok rawValues, σ₂) =>
        match Storage.cidsAfter fuel
            { σ₂ with invoked := σ₂.invoked ++ [callHistoryId] }
            inputTps (op.f rawValues).2 with
        | (.error e, σ₄) => (.error e, σ₄)
        | (.ok cidsAfterList, σ₄) =>
          if ((wrappedInputs.map fun kv => (kv.1, kv.2.cid)).filter fun kv =>
                lookupStr cidsAfterList kv.1 ≠ some kv.2).length > 0 then
            (.error .sideEffect, σ₄)
          else (.ok (op.f rawValues).1, σ₄) := by
  rw [Storage.execCall.eq_def]

theorem callInternal_succ (fuel : Nat) (σ : Storage) (op : Op)
    (inputs : List (String × Val)) (inputTps : List (String × Ty)) :
    Storage.callInternal (fuel + 1) σ op inputs inputTps =
    match Storage.constructInputs fuel σ inputTps inputs with
    | (.error e, σ') => (.error e, σ')
    | (.ok (wrappedInputs, inputCalls), σ₁) =>
      if σ₁.existsCall (op.getCallHistoryId wrappedInputs) then
        match σ₁.getCall fuel (op.getCallHistoryId wrappedInputs) true with
        | (.error e, σ₂) => (.error e, σ₂)
        | (.ok mainCall, σ₂) => (.ok (mainCall.outputs, mainCall, inputCalls), σ₂)
      else
        match Storage.execCall fuel σ₁ op wrappedInputs inputTps
            (op.getCallHistoryId wrappedInputs) with
        | (.error e, σ₂) => (.error e, σ₂)
        | (.ok rets, σ₂) =>
          match Storage.wrapOutputs fuel σ₂ op.outSig
              (Op.getOutputHistoryIds (op.getCallHistoryId wrappedInputs)
                (((op.outSig.map Prod.fst).zip rets).map Prod.fst))
              ((op.outSig.map Prod.fst).zip rets) with
          | (.error e, σ₃) => (.error e, σ₃)
          | (.ok (wrappedOutputs, outputCalls), σ₃) =>
            (.ok (wrappedOutputs,
                  { op := op, cid := op.getCallContentId wrappedInputs
                    hid := op.getCallHistoryId wrappedInputs
                    inputs := wrappedInputs, outputs := wrappedOutputs },
                  inputCalls ++ outputCalls), σ₃) := by
  rw [Storage.callInternal.eq_def]

/-- The whole memoization engine writes no row: `construct`, `destruct`,
`call_internal` and their loops preserve the frame (they only populate
caches on reads and extend the ghost `invoked` log), whether they succeed or
fail. -/
theorem engine_frame (fuel : Nat) :
    (∀ σ tp v, FrameOk σ (Storage.construct fuel σ tp v).2) ∧
    (∀ σ tps ins, FrameOk σ (Storage.constructInputs fuel σ tps ins).2) ∧
    (∀ σ tps pvs, FrameOk σ (Storage.cidsAfter fuel σ tps pvs).2) ∧
    (∀ σ tps hids outs, FrameOk σ (Storage.wrapOutputs fuel σ tps hids outs).2) ∧
    (∀ σ r tp, FrameOk σ (Storage.destruct fuel σ r tp).2) ∧
    (∀ σ p tp es i, FrameOk σ (Storage.destructElts fuel σ p tp es i).2) ∧
    (∀ σ op wi tps h, FrameOk σ (Storage.execCall fuel σ op wi tps h).2) ∧
    (∀ σ op ins tps, FrameOk σ (Storage.callInternal fuel σ op ins tps).2) := by
  induction fuel with
  | zero =>
    refine ⟨?_, ?_, ?_, ?_, ?_, ?_, ?_, ?_⟩ <;> intros <;>
      first
        | (rw [Storage.construct]; exact FrameOk.refl _)
        | (rw [Storage.constructInputs]; exact FrameOk.refl _)
        | (rw [Storage.cidsAfter]; exact FrameOk.refl _)
        | (rw [Storage.wrapOutputs]; exact FrameOk.refl _)
        | (rw [Storage.destruct]; exact FrameOk.refl _)
        | (rw [Storage.destructElts]; exact FrameOk.refl _)
        | (rw [Storage.execCall]; exact FrameOk.refl _)
        | (rw [Storage.callInternal]; exact FrameOk.refl _)
  | succ fuel ih =>
    obtain ⟨ihC, ihCI, ihCA, ihWO, ihD, ihDE, ihEx, ihCall⟩ := ih
    have hC : ∀ σ tp v, FrameOk σ (Storage.construct (fuel + 1) σ tp v).2 := by
      intro σ tp v
      rw [construct_succ]
      split
      · exact FrameOk.refl σ
      · split
        · split
          · exact FrameOk.refl σ
          · exact FrameOk.refl σ
        · split
          next elts =>
            split
            next e σ' heq => exact FrameOk.ofEq heq (ihCall σ _ _ _)
            next res mc calls σ' heq =>
              split
              · exact FrameOk.ofEq heq (ihCall σ _ _ _)
              · exact FrameOk.ofEq heq (ihCall σ _ _ _)
          · exact FrameOk.refl σ
    have hCI : ∀ σ tps ins, FrameOk σ (Storage.constructInputs (fuel + 1) σ tps ins).2 := by
      intro σ tps ins
      rw [constructInputs_succ]
      split
      · exact FrameOk.refl σ
      next k v rest =>
        split
        · exact FrameOk.refl σ
        next tp htp =>
          split
          next e σ' heq => exact FrameOk.ofEq heq (ihC σ _ _)
          next r cs σ' heq =>
            split
            next e σ'' heq2 =>
              exact (FrameOk.ofEq heq (ihC σ _ _)).trans
                (FrameOk.ofEq heq2 (ihCI σ' _ _))
            next ws cs' σ'' heq2 =>
              exact (FrameOk.ofEq heq (ihC σ _ _)).trans
                (FrameOk.ofEq heq2 (ihCI σ' _ _))
    have hCA : ∀ σ tps pvs, FrameOk σ (Storage.cidsAfter (fuel + 1) σ tps pvs).2 := by
      intro σ tps pvs
      rw [cidsAfter_succ]
      split
      · exact FrameOk.refl σ
      next k v rest =>
        split
        · exact FrameOk.refl σ
        next tp htp =>
          split
          next e σ' heq => exact FrameOk.ofEq heq (ihC σ _ _)
          next r cs σ' heq =>
            split
            next e σ'' heq2 =>
              exact (FrameOk.ofEq heq (ihC σ _ _)).trans
                (FrameOk.ofEq heq2 (ihCA σ' _ _))
            next cs' σ'' heq2 =>
              exact (FrameOk.ofEq heq (ihC σ _ _)).trans
                (FrameOk.ofEq heq2 (ihCA σ' _ _))
    have hD : ∀ σ r tp, FrameOk σ (Storage.destruct (fuel + 1) σ r tp).2 := by
      intro σ r tp
      rw [destruct_succ]
      split
      · exact FrameOk.refl σ
      · split
        · split
          next e σ' heq => exact FrameOk.ofEq heq (ihDE σ _ _ _ _)
          next es cs σ' heq => exact FrameOk.ofEq heq (ihDE σ _ _ _ _)
        · exact FrameOk.refl σ
    have hDE : ∀ σ p tp es i, FrameOk σ (Storage.destructElts (fuel + 1) σ p tp es i).2 := by
      intro σ p tp es i
      rw [destructElts_succ]
      split
      · exact FrameOk.refl σ
      · split
        next e σ' heq => exact FrameOk.ofEq heq (ihCall σ _ _ _)
        next outs ic rest σ' heq =>
          split
          · exact FrameOk.ofEq heq (ihCall σ _ _ _)
          next ne hne =>
            split
            next e σ'' heq2 =>
              exact (FrameOk.ofEq heq (ihCall σ _ _ _)).trans
                (FrameOk.ofEq heq2 (ihD σ' _ _))
            next ne' sub σ'' heq2 =>
              split
              next e σ₃ heq3 =>
                exact ((FrameOk.ofEq heq (ihCall σ _ _ _)).trans
                  (FrameOk.ofEq heq2 (ihD σ' _ _))).trans
                  (FrameOk.ofEq heq3 (ihDE σ'' _ _ _ _))
              next es' cs σ₃ heq3 =>
                exact ((FrameOk.ofEq heq (ihCall σ _ _ _)).trans
                  (FrameOk.ofEq heq2 (ihD σ' _ _))).trans
                  (FrameOk.ofEq heq3 (ihDE σ'' _ _ _ _))
    have hWO : ∀ σ tps hids outs, FrameOk σ (Storage.wrapOutputs (fuel + 1) σ tps hids outs).2 := by
      intro σ tps hids outs
      rw [wrapOutputs_succ]
      split
      · exact FrameOk.refl σ
      next k v rest =>
        split
        · exact FrameOk.refl σ
        next hid hhid =>
          split
          next r =>
            split
            next e σ' heq => exact FrameOk.ofEq heq (ihWO σ _ _ _)
            next ws cs σ' heq => exact FrameOk.ofEq heq (ihWO σ _ _ _)
          · split
            · exact FrameOk.refl σ
            · split
              · exact FrameOk.refl σ
              next raw hraw =>
                split
                next e σ' heq => exact FrameOk.ofEq heq (ihWO σ _ _ _)
                next ws cs σ' heq => exact FrameOk.ofEq heq (ihWO σ _ _ _)
            next tp htp =>
              split
              next e σ' heq => exact FrameOk.ofEq heq (ihC σ _ _)
              next st stc σ' heq =>
                split
                next e σ'' heq2 =>
                  exact (FrameOk.ofEq heq (ihC σ _ _)).trans
                    (FrameOk.ofEq heq2 (ihD σ' _ _))
                next fin cs σ'' heq2 =>
                  split
                  next e σ₃ heq3 =>
                    exact ((FrameOk.ofEq heq (ihC σ _ _)).trans
                      (FrameOk.ofEq heq2 (ihD σ' _ _))).trans
                      (FrameOk.ofEq heq3 (ihWO σ'' _ _ _))
                  next ws cs' σ₃ heq3 =>
                    exact ((FrameOk.ofEq heq (ihC σ _ _)).trans
                      (FrameOk.ofEq heq2 (ihD σ' _ _))).trans
                      (FrameOk.ofEq heq3 (ihWO σ'' _ _ _))
    have hEx : ∀ σ op wi tps h, FrameOk σ (Storage.execCall (fuel + 1) σ op wi tps h).2 := by
      intro σ op wi tps h
      rw [execCall_succ]
      split
      · exact FrameOk.invokedLog σ _
      · split
        next e σ₂ heq => exact FrameOk.ofEq heq ((unwrapInputs_readFrame fuel wi σ).1)
        next raws σ₂ heq =>
          have h1 : FrameOk σ { σ₂ with invoked := σ₂.invoked ++ [h] } :=
            (FrameOk.ofEq heq ((unwrapInputs_readFrame fuel wi σ).1)).trans
              (FrameOk.invokedLog σ₂ _)
          split
          next e σ₄ heq2 => exact h1.trans (FrameOk.ofEq heq2 (ihCA _ _ _))
          next cl σ₄ heq2 =>
            split
            · exact h1.trans (FrameOk.ofEq heq2 (ihCA _ _ _))
            · exact h1.trans (FrameOk.ofEq heq2 (ihCA _ _ _))
    have hCall : ∀ σ op ins tps, FrameOk σ (Storage.callInternal (fuel + 1) σ op ins tps).2 := by
      intro σ op ins tps
      rw [callInternal_succ]
      split
      next e σ' heq => exact FrameOk.ofEq heq (ihCI σ _ _)
      next wi ic σ₁ heq =>
        have h1 : FrameOk σ σ₁ := FrameOk.ofEq heq (ihCI σ _ _)
        split
        · split
          next e σ₂ heq2 =>
            exact h1.trans (FrameOk.ofEq heq2 (getCall_readFrame fuel σ₁ _ _).1)
          next mc σ₂ heq2 =>
            exact h1.trans (FrameOk.ofEq heq2 (getCall_readFrame fuel σ₁ _ _).1)
        · split
          next e σ₂ heq2 => exact h1.trans (FrameOk.ofEq heq2 (ihEx σ₁ _ _ _ _))
          next rets σ₂ heq2 =>
            have h2 : FrameOk σ σ₂ := h1.trans (FrameOk.ofEq heq2 (ihEx σ₁ _ _ _ _))
            split
            next e σ₃ heq3 => exact h2.trans (FrameOk.ofEq heq3 (ihWO σ₂ _ _ _))
            next wo oc σ₃ heq3 => exact h2.trans (FrameOk.ofEq heq3 (ihWO σ₂ _ _ _))
    exact ⟨hC, hCI, hCA, hWO, hD, hDE, hEx, hCall⟩

/-! ## Further lemmas about the cached layer and `save_ref` -/

theorem CachedDict.hasKey_set_self {κ β : Type} [DecidableEq κ]
    (s : CachedDict κ β) (k : κ) (v : β) : (s.set k v).hasKey k = true := by
  rw [CachedDict.hasKey_eq_peek, CachedDict.peek_set_self]
  rfl

theorem CachedDict.hasKey_set_mono {κ β : Type} [DecidableEq κ]
    {s : CachedDict κ β} {k : κ} (k' : κ) (v : β) (h : s.hasKey k = true) :
    (s.set k' v).hasKey k = true := by
  by_cases hk : k' = k
  · subst hk; exact CachedDict.hasKey_set_self s k' v
  · rw [CachedDict.hasKey_eq_peek, CachedDict.peek_set_ne _ _ _ _ hk,
      ← CachedDict.hasKey_eq_peek]
    exact h

mutual

/-- `save_ref` never removes a shapes key. -/
theorem saveRef_shapes_hasKey_mono (σ : Storage) (r : Ref) (k : Id)
    (h : σ.shapes.hasKey k = true) : ((σ.saveRef r).shapes).hasKey k = true := by
  rcases r with ⟨cid, hid, inM, obj⟩ | ⟨cid, hid, inM, elts⟩ <;>
    rw [Storage.saveRef.eq_def]
  · split
    · exact h
    · exact CachedDict.hasKey_set_mono _ _ h
  · split
    · exact h
    · exact saveRefList_shapes_hasKey_mono _ elts k (CachedDict.hasKey_set_mono _ _ h)

/-- The recursive child-saving loop never removes a shapes key. -/
theorem saveRefList_shapes_hasKey_mono (σ : Storage) (l : List Ref) (k : Id)
    (h : σ.shapes.hasKey k = true) :
    ((Storage.saveRefList σ l).shapes).hasKey k = true := by
  cases l with
  | nil => rw [Storage.saveRefList]; exact h
  | cons r rs =>
    rw [Storage.saveRefList]
    exact saveRefList_shapes_hasKey_mono _ rs k (saveRef_shapes_hasKey_mono σ r k h)

end

/-- After `save_ref`, the saved ref's hid is known to the shapes table. -/
theorem saveRef_saves (σ : Storage) (r : Ref) :
    ((σ.saveRef r).shapes).hasKey r.hid = true := by
  rcases r with ⟨cid, hid, inM, obj⟩ | ⟨cid, hid, inM, elts⟩ <;>
    rw [Storage.saveRef.eq_def]
  · split
    next h => exact h
    · exact CachedDict.hasKey_set_self _ _ _
  · split
    next h => exact h
    · exact saveRefList_shapes_hasKey_mono _ elts _ (CachedDict.hasKey_set_self _ _ _)

/-! ## Claim C5 -/

/-- C5: `save_ref` is idempotent — if the ref's hid is already present in
the `shapes` table then `save_ref` is a no-op on the whole storage state,
and for every ref (in particular for every wrapped value) calling
`save_ref` twice leaves the storage (so in particular the `atoms` and
`shapes` tables) exactly as calling it once. -/
theorem C5_saveRef_idempotent :
    (∀ (σ : Storage) (r : Ref), σ.shapes.hasKey r.hid = true → σ.saveRef r = σ) ∧
    (∀ (σ : Storage) (r : Ref), (σ.saveRef r).saveRef r = σ.saveRef r) ∧
    (∀ (σ : Storage) (v : PyVal),
      (σ.saveRef (wrapAtom v none)).saveRef (wrapAtom v none)
        = σ.saveRef (wrapAtom v none)) := by
  have hnoop : ∀ (σ : Storage) (r : Ref), σ.shapes.hasKey r.hid = true →
      σ.saveRef r = σ := by
    intro σ r h
    rw [Storage.saveRef.eq_def, if_pos h]
  refine ⟨hnoop, ?_, ?_⟩
  · intro σ r
    exact hnoop _ r (saveRef_saves σ r)
  · intro σ v
    exact hnoop _ (wrapAtom v none) (saveRef_saves σ (wrapAtom v none))

/-- Witness for C5: a concrete no-op instance — after saving the wrapped
value `5`, its hid is present and re-saving changes nothing. -/
theorem C5_saveRef_idempotent_witness :
    (Storage.empty.saveRef (wrapAtom (.pv 5) none)).saveRef (wrapAtom (.pv 5) none)
      = Storage.empty.saveRef (wrapAtom (.pv 5) none) :=
  C5_saveRef_idempotent.1 _ _ (by rfl)

/-! ## Claim C10 -/

/-- A fold whose step only touches the `calls` component leaves the other
three tables (and the flags) unchanged. -/
theorem foldl_calls_only {α : Type} (f : Storage → α → Storage)
    (hf : ∀ σ a, (f σ a).shapes = σ.shapes ∧ (f σ a).atoms = σ.atoms ∧
      (f σ a).ops = σ.ops) (l : List α) :
    ∀ σ : Storage, (l.foldl f σ).shapes = σ.shapes ∧
      (l.foldl f σ).atoms = σ.atoms ∧ (l.foldl f σ).ops = σ.ops := by
  induction l with
  | nil => intro σ; exact ⟨rfl, rfl, rfl⟩
  | cons a rest ih =>
    intro σ
    rw [List.foldl_cons]
    obtain ⟨h1, h2, h3⟩ := ih (f σ a)
    obtain ⟨g1, g2, g3⟩ := hf σ a
    exact ⟨h1.trans g1, h2.trans g2, h3.trans g3⟩

/-- C10: `drop_calls` modifies only the call cache and the durable calls
table — for every hid set and either value of `delete_dependents`, the
`shapes`, `atoms` and `ops` tables are untouched (so the refs of dropped
calls persist until an explicit `cleanup_refs`). -/
theorem C10_dropCalls_frame (σ : Storage) (hids : List Id) (b : Bool) :
    (σ.dropCalls hids b).shapes = σ.shapes ∧
    (σ.dropCalls hids b).atoms = σ.atoms ∧
    (σ.dropCalls hids b).ops = σ.ops := by
  have hf1 : ∀ (σ' : Storage) (h : Id),
      ((if σ'.calls.cache.hasKey h then
          { σ' with calls := { σ'.calls with cache := σ'.calls.cache.dropKey h } }
        else σ')).shapes = σ'.shapes ∧
      ((if σ'.calls.cache.hasKey h then
          { σ' with calls := { σ'.calls with cache := σ'.calls.cache.dropKey h } }
        else σ')).atoms = σ'.atoms ∧
      ((if σ'.calls.cache.hasKey h then
          { σ' with calls := { σ'.calls with cache := σ'.calls.cache.dropKey h } }
        else σ')).ops = σ'.ops := by
    intro σ' h
    split <;> exact ⟨rfl, rfl, rfl⟩
  have hf2 : ∀ (σ' : Storage) (h : Id),
      (({ σ' with calls :=
          { σ'.calls with persistent := σ'.calls.persistent.dropKey h } } : Storage)).shapes
        = σ'.shapes ∧
      (({ σ' with calls :=
          { σ'.calls with persistent := σ'.calls.persistent.dropKey h } } : Storage)).atoms
        = σ'.atoms ∧
      (({ σ' with calls :=
          { σ'.calls with persistent := σ'.calls.persistent.dropKey h } } : Storage)).ops
        = σ'.ops := by
    intro σ' h
    exact ⟨rfl, rfl, rfl⟩
  rw [Storage.dropCalls]
  obtain ⟨a1, a2, a3⟩ := foldl_calls_only _ hf1
    (if b then hids ++ dependentCallHids σ.calls.persistent hids else hids) σ
  obtain ⟨b1, b2, b3⟩ := foldl_calls_only _ hf2
    (if b then hids ++ dependentCallHids σ.calls.persistent hids else hids)
    (List.foldl _ σ (if b then hids ++ dependentCallHids σ.calls.persistent hids else hids))
  exact ⟨b1.trans a1, b2.trans a2, b3.trans a3⟩

/-! ## Claim C8 -/

/-- C8: while a write context is open, each of `get_orphans`,
`get_unreferenced_cids`, `get_creators` and `get_consumers` fails with the
context-state error instead of returning a result. -/
theorem C8_context_guard (σ : Storage) (fuel : Nat) (refHids : List Id)
    (h : σ.inContext = true) :
    σ.getOrphans = .error .contextState ∧
    σ.getUnreferencedCids = .error .contextState ∧
    Storage.getCreators fuel σ refHids = (.error .contextState, σ) ∧
    Storage.getConsumers fuel σ refHids = (.error .contextState, σ) := by
  refine ⟨?_, ?_, ?_, ?_⟩ <;>
    simp [Storage.getOrphans, Storage.getUnreferencedCids,
      Storage.getCreators, Storage.getConsumers, h]

/-- Witness for C8 at a concrete in-context storage. -/
theorem C8_context_guard_witness :
    ({ Storage.empty with inContext := true } : Storage).getOrphans
        = .error .contextState ∧
    ({ Storage.empty with inContext := true } : Storage).getUnreferencedCids
        = .error .contextState ∧
    Storage.getCreators 1 { Storage.empty with inContext := true } []
        = (.error .contextState, { Storage.empty with inContext := true }) ∧
    Storage.getConsumers 1 { Storage.empty with inContext := true } []
        = (.error .contextState, { Storage.empty with inContext := true }) :=
  C8_context_guard { Storage.empty with inContext := true } 1 [] rfl

/-! ## Claim C4 -/

/-- A concrete in-memory atom ref holding `5`. -/
def c4Child : Ref := wrapAtom (.pv 5) none

/-- A concrete in-memory one-element list ref over `c4Child`. -/
def c4Parent : Ref :=
  Ref.list (Id.listCid (chainIds [c4Child.cid]))
    (Id.rawSeed (Id.listCid (chainIds [c4Child.cid]))) true [c4Child]

/-- C4, what the code actually does at the failing input: after
`save_ref` of the one-element list, `load_ref(hid, lazy := false)` returns
the list with its child still detached — no payload is resident — because
line 77 of storage.py attaches `shape.obj` (the detached shape children)
and discards the children it just loaded.  The claim (and §4.2 of the spec)
requires the child to come back with its value `5` resident. -/
theorem C4_list_load_divergence :
    ((Storage.empty.saveRef c4Parent).loadRef 3 c4Parent.hid false).1 =
      .ok (Ref.list c4Parent.cid c4Parent.hid true
        [Ref.atom c4Child.cid c4Child.hid false .pnone]) := rfl

/-! ## Claim C1 -/

/-- `construct` on an already-wrapped ref returns it unchanged with no
calls (given any fuel at all). -/
theorem construct_ref (fuel : Nat) (σ : Storage) (tp : Ty) (r : Ref) :
    Storage.construct fuel σ tp (Val.ref r) =
      if fuel = 0 then (.error .insufficientFuel, σ) else (.ok (r, []), σ) := by
  cases fuel with
  | zero => rw [Storage.construct]; rfl
  | succ fuel => rw [construct_succ]; simp

/-- The input-wrapping loop on already-wrapped refs either runs out of fuel
or misses a type annotation (leaving the state unchanged either way), or
returns exactly the given refs with no auxiliary calls and an unchanged
state. -/
theorem constructInputs_refs (refs : List (String × Ref)) :
    ∀ (fuel : Nat) (σ : Storage) (tps : List (String × Ty)),
      (∃ e, Storage.constructInputs fuel σ tps
        (refs.map fun kv => (kv.1, Val.ref kv.2)) = (.error e, σ)) ∨
      Storage.constructInputs fuel σ tps
        (refs.map fun kv => (kv.1, Val.ref kv.2)) = (.ok (refs, []), σ) := by
  induction refs with
  | nil =>
    intro fuel σ tps
    cases fuel with
    | zero => exact .inl ⟨.insufficientFuel, by rw [Storage.constructInputs]⟩
    | succ fuel => right; rw [constructInputs_succ]; rfl
  | cons kv rest ih =>
    intro fuel σ tps
    cases fuel with
    | zero => exact .inl ⟨.insufficientFuel, by rw [Storage.constructInputs]⟩
    | succ fuel =>
      rcases kv with ⟨k, r⟩
      cases hl : lookupStr tps k with
      | none =>
        exact .inl ⟨.keyNotFound, by rw [constructInputs_succ]; simp [hl]⟩
      | some tp =>
        have hcon := construct_ref fuel σ tp r
        cases fuel with
        | zero =>
          exact .inl ⟨.insufficientFuel,
            by rw [constructInputs_succ]; simp [hl, hcon]⟩
        | succ fuel' =>
          rcases ih (fuel' + 1) σ tps with ⟨e, herr⟩ | hok
          · exact .inl ⟨e, by rw [constructInputs_succ]; simp [hl, hcon, herr]⟩
          · right
            rw [constructInputs_succ]
            simp [hl, hcon, hok]

/-- The memo-hit path of `call_internal` on wrapped inputs, characterized:
the stored call is read via `get_call` (outputs lazy), its outputs are
returned, no auxiliary calls are created and the ghost invocation log is
unchanged. -/
theorem callInternal_hit (fuel : Nat) (σ σ' : Storage) (op : Op)
    (refs : List (String × Ref)) (tps : List (String × Ty))
    (outs : List (String × Ref)) (mc : Call) (aux : List Call)
    (hex : σ.existsCall (op.getCallHistoryId refs) = true)
    (hrun : Storage.callInternal (fuel + 1) σ op
        (refs.map fun kv => (kv.1, Val.ref kv.2)) tps = (.ok (outs, mc, aux), σ')) :
    Storage.getCall fuel σ (op.getCallHistoryId refs) true = (.ok mc, σ') ∧
    outs = mc.outputs ∧ aux = [] ∧ σ'.invoked = σ.invoked := by
  rw [callInternal_succ] at hrun
  rcases constructInputs_refs refs fuel σ tps with ⟨e, herr⟩ | hok
  · rw [herr] at hrun
    simp at hrun
  · rw [hok] at hrun
    simp only [hex, if_true] at hrun
    rcases hget : Storage.getCall fuel σ (op.getCallHistoryId refs) true with ⟨res, σ₂⟩
    have hinv : σ₂.invoked = σ.invoked := by
      have := (getCall_readFrame fuel σ (op.getCallHistoryId refs) true).2
      rw [hget] at this
      exact this
    rcases res with e | mc₂
    · rw [hget] at hrun
      simp at hrun
    · rw [hget] at hrun
      simp only [Prod.mk.injEq, Except.ok.injEq] at hrun
      obtain ⟨⟨houts, hmc, haux⟩, hσ⟩ := hrun
      subst hmc hσ
      exact ⟨rfl, houts.symm, haux.symm, hinv⟩

/-- C1: if a call with the computed call history id already exists in
storage (call cache or durable table), `call_internal` on wrapped inputs
returns the stored call (read via `get_call`, outputs loaded lazily), its
outputs unchanged, no auxiliary calls — and the op's underlying function is
not invoked (the ghost invocation log is unchanged). -/
theorem C1_memo_hit (fuel : Nat) (σ σ' : Storage) (op : Op)
    (refs : List (String × Ref)) (tps : List (String × Ty))
    (outs : List (String × Ref)) (mc : Call) (aux : List Call)
    (hex : σ.existsCall (op.getCallHistoryId refs) = true)
    (hrun : Storage.callInternal (fuel + 1) σ op
        (refs.map fun kv => (kv.1, Val.ref kv.2)) tps = (.ok (outs, mc, aux), σ')) :
    Storage.getCall fuel σ (op.getCallHistoryId refs) true = (.ok mc, σ') ∧
    outs = mc.outputs ∧ aux = [] ∧ σ'.invoked = σ.invoked :=
  callInternal_hit fuel σ σ' op refs tps outs mc aux hex hrun

/-- A concrete unary user op (`inc`) used by the C1 witness. -/
def c1Op : Op :=
  { name := "inc", version := 0, structural := false
    outSig := [("output_0", Ty.atomT)]
    f := fun ins =>
      match ins with
      | [(_, .atom n)] => ([.atom (n + 1)], ins)
      | _ => ([], ins) }

/-- The storage after executing and saving one `c1Op` call on input `1`. -/
def c1Store : Storage :=
  match Storage.callInternal 10 Storage.empty c1Op
      [("x", .ref (wrapAtom (.pv 1) none))] [("x", .atomT)] with
  | (.ok (_, mc, _), σ) => σ.saveCall mc
  | (_, σ) => σ

/-- The re-invocation of the saved call — a memo hit. -/
def c1Run : Except Err (List (String × Ref) × Call × List Call) × Storage :=
  Storage.callInternal 10 c1Store c1Op
    [("x", .ref (wrapAtom (.pv 1) none))] [("x", .atomT)]

/-- The outputs of the memo hit. -/
def c1Outs : List (String × Ref) :=
  match c1Run.1 with
  | .ok (outs, _, _) => outs
  | _ => []

/-- The main call of the memo hit. -/
def c1Mc : Call :=
  match c1Run.1 with
  | .ok (_, mc, _) => mc
  | _ => { op := c1Op, cid := .inil, hid := .inil, inputs := [], outputs := [] }

/-- The auxiliary calls of the memo hit. -/
def c1Aux : List Call :=
  match c1Run.1 with
  | .ok (_, _, aux) => aux
  | _ => []

/-- Witness for C1: re-invoking the saved `inc` call hits the memo — the
stored call is returned and the function is not invoked again. -/
theorem C1_memo_hit_witness :
    Storage.getCall 9 c1Store (c1Op.getCallHistoryId [("x", wrapAtom (.pv 1) none)]) true
      = (.ok c1Mc, c1Run.2) ∧
    c1Outs = c1Mc.outputs ∧ c1Aux = [] ∧ c1Run.2.invoked = c1Store.invoked :=
  C1_memo_hit 9 c1Store c1Run.2 c1Op [("x", wrapAtom (.pv 1) none)] [("x", .atomT)]
    c1Outs c1Mc c1Aux (by rfl) (by rfl)

/-! ## Claim C9 -/

mutual

/-- A ref carries no resident payload: a detached atom, or a list all of
whose children (recursively) carry no resident payload.  (The list's own
`in_memory` flag is a wrapper marker, not a payload.) -/
def Ref.payloadFreeB : Ref → Bool
  | .atom _ _ inM _ => !inM
  | .list _ _ _ es => Ref.payloadFreeListB es

/-- `payloadFreeB` over a list of refs. -/
def Ref.payloadFreeListB : List Ref → Bool
  | [] => true
  | r :: rs => Ref.payloadFreeB r && Ref.payloadFreeListB rs

end

/-- The shapes-table invariant maintained by `save_ref`: every stored shape
is payload-free (shapes are detached refs). -/
def ShapesDetached (σ : Storage) : Prop :=
  ∀ hid s, σ.shapes.peek hid = some s → Ref.payloadFreeB s = true

theorem Table.get?_some_mem {κ β : Type} [DecidableEq κ] {t : List (κ × β)}
    {k : κ} {v : β} (h : Table.get? t k = some v) : (k, v) ∈ t := by
  induction t with
  | nil => simp [Table.get?] at h
  | cons kv rest ih =>
    rw [Table.get?] at h
    by_cases hk : kv.1 = k
    · rw [if_pos hk] at h
      rcases kv with ⟨k₀, v₀⟩
      obtain rfl := hk
      obtain rfl : v₀ = v := by simpa using h
      exact List.mem_cons_self _ _
    · rw [if_neg hk] at h
      exact List.mem_cons_of_mem _ (ih h)

/-- The decidable form of `ShapesDetached`, for concrete storages. -/
def shapesDetachedB (σ : Storage) : Bool :=
  (σ.shapes.cache.all fun kv => Ref.payloadFreeB kv.2) &&
  (σ.shapes.persistent.all fun kv => Ref.payloadFreeB kv.2)

theorem shapesDetached_of_B (σ : Storage) (h : shapesDetachedB σ = true) :
    ShapesDetached σ := by
  rw [shapesDetachedB, Bool.and_eq_true] at h
  intro hid s hpeek
  rw [CachedDict.peek] at hpeek
  rcases hc : σ.shapes.cache.get? hid with _ | v
  · rw [hc] at hpeek
    have := Table.get?_some_mem hpeek
    exact (List.all_eq_true.mp h.2) _ this
  · rw [hc] at hpeek
    obtain rfl : v = s := by simpa using hpeek
    exact (List.all_eq_true.mp h.1) _ (Table.get?_some_mem hc)

/-- A frame-preserving step keeps the shapes invariant. -/
theorem ShapesDetached.ofFrame {σ σ' : Storage} (h : ShapesDetached σ)
    (hf : FrameOk σ σ') : ShapesDetached σ' := by
  intro hid s hpeek
  exact h hid s ((hf.shapes_peek hid) ▸ hpeek)

/-- A lazily loaded ref is payload-free (given detached shapes). -/
theorem loadRef_lazy_payloadFree (fuel : Nat) (σ σ' : Storage) (hid : Id)
    (r : Ref) (hdet : ShapesDetached σ)
    (h : Storage.loadRef fuel σ hid true = (.ok r, σ')) :
    Ref.payloadFreeB r = true := by
  cases fuel with
  | zero => rw [Storage.loadRef] at h; simp at h
  | succ fuel =>
    rw [Storage.loadRef] at h
    split at h
    · simp at h
    next cid h2 inM obj shapes' heq =>
      have hshape : Ref.payloadFreeB (Ref.atom cid h2 inM obj) = true := by
        refine hdet hid _ ?_
        rw [← CachedDict.get?_fst, heq]
      rw [if_pos rfl] at h
      simp only [Prod.mk.injEq, Except.ok.injEq] at h
      obtain ⟨rfl, -⟩ := h
      exact hshape
    next cid h2 inM elts shapes' heq =>
      have hshape : Ref.payloadFreeB (Ref.list cid h2 inM elts) = true := by
        refine hdet hid _ ?_
        rw [← CachedDict.get?_fst, heq]
      split at h
      · simp at h
      · simp only [Prod.mk.injEq, Except.ok.injEq] at h
        obtain ⟨rfl, -⟩ := h
        rw [Ref.attachedList]
        rw [Ref.payloadFreeB] at hshape ⊢
        exact hshape

/-- Lazily loaded rows are payload-free (given detached shapes). -/
theorem loadRefRows_lazy_payloadFree (fuel : Nat) (rows : List (String × Id × Id)) :
    ∀ (σ σ' : Storage) (res : List (String × Ref)), ShapesDetached σ →
      Storage.loadRefRows fuel σ rows true = (.ok res, σ') →
      ∀ kv ∈ res, Ref.payloadFreeB kv.2 = true := by
  induction rows with
  | nil =>
    intro σ σ' res hdet h
    rw [Storage.loadRefRows] at h
    simp only [Prod.mk.injEq, Except.ok.injEq] at h
    obtain ⟨rfl, -⟩ := h
    intro kv hkv
    simp at hkv
  | cons row rest ih =>
    intro σ σ' res hdet h
    rcases row with ⟨k, hid, cid⟩
    rw [Storage.loadRefRows] at h
    split at h
    · simp at h
    next r σ₁ heq =>
      split at h
      · simp at h
      next rs σ₂ heq2 =>
        simp only [Prod.mk.injEq, Except.ok.injEq] at h
        obtain ⟨rfl, -⟩ := h
        intro kv hkv
        rcases List.mem_cons.mp hkv with rfl | hkv'
        · exact loadRef_lazy_payloadFree fuel σ σ₁ hid r hdet heq
        · have hdet1 : ShapesDetached σ₁ :=
            hdet.ofFrame (FrameOk.ofEq heq ((loadRef_readFrame fuel).1 σ hid true).1)
          exact ih σ₁ σ₂ rs hdet1 heq2 kv hkv'

/-- All outputs of a lazily read call are payload-free. -/
theorem getCall_lazy_outputs_payloadFree (fuel : Nat) (σ σ₂ : Storage) (hid : Id)
    (c : Call) (hdet : ShapesDetached σ)
    (h : Storage.getCall fuel σ hid true = (.ok c, σ₂)) :
    ∀ kv ∈ c.outputs, Ref.payloadFreeB kv.2 = true := by
  rw [Storage.getCall] at h
  split at h
  · simp at h
  next data hdata =>
    split at h
    · simp at h
    next op ops' heq =>
      have hdet1 : ShapesDetached { σ with ops := ops' } := by
        refine hdet.ofFrame ?_
        have := FrameOk.opsGet σ data.opName
        rwa [heq] at this
      split at h
      · simp at h
      next ins σa heq2 =>
        have hdet2 : ShapesDetached σa :=
          hdet1.ofFrame (FrameOk.ofEq heq2
            ((loadRefRows_readFrame fuel data.inputRows _ true).1))
        split at h
        · simp at h
        next outs σb heq3 =>
          simp only [Prod.mk.injEq, Except.ok.injEq] at h
          obtain ⟨rfl, -⟩ := h
          exact loadRefRows_lazy_payloadFree fuel data.outputRows σa σb outs hdet2 heq3

/-- C9: on a memoization hit, every output ref returned by `call_internal`
is detached — it carries no in-memory payload — provided the shapes table
holds only detached shapes (the invariant `save_ref` maintains), regardless
of whether the original call's outputs were resident when first executed
and saved. -/
theorem C9_hit_outputs_detached (fuel : Nat) (σ σ' : Storage) (op : Op)
    (refs : List (String × Ref)) (tps : List (String × Ty))
    (outs : List (String × Ref)) (mc : Call) (aux : List Call)
    (hdet : ShapesDetached σ)
    (hex : σ.existsCall (op.getCallHistoryId refs) = true)
    (hrun : Storage.callInternal (fuel + 1) σ op
        (refs.map fun kv => (kv.1, Val.ref kv.2)) tps = (.ok (outs, mc, aux), σ')) :
    ∀ kv ∈ outs, Ref.payloadFreeB kv.2 = true := by
  obtain ⟨hget, houts, -, -⟩ :=
    callInternal_hit fuel σ σ' op refs tps outs mc aux hex hrun
  intro kv hkv
  exact getCall_lazy_outputs_payloadFree fuel σ σ' _ mc hdet hget kv (houts ▸ hkv)

/-- Witness for C9: the outputs of the concrete memo hit `c1Run` are all
payload-free. -/
theorem C9_hit_outputs_detached_witness :
    (c1Outs.all fun kv => Ref.payloadFreeB kv.2) = true :=
  List.all_eq_true.mpr (C9_hit_outputs_detached 9 c1Store c1Run.2 c1Op
    [("x", wrapAtom (.pv 1) none)] [("x", .atomT)] c1Outs c1Mc c1Aux
    (shapesDetached_of_B _ (by rfl)) (by rfl) (by rfl))

/-! ## Claim C3 -/

/-- C3: for a non-structural (user) op on wrapped inputs, when the content
id of some input recomputed after invocation (the `cids_after` list built by
the guard from the post-invocation values) differs from the cid taken
before invocation, `call_internal` fails with the side-effect error and
writes no call or ref row: the final state is frame-equal to the initial
one — the calls store is untouched and the persistent rows, dirty markers
and logical lookups of `atoms`, `shapes` and `ops` are unchanged. -/
theorem C3_side_effect_guard (fuel : Nat) (σ σu σc : Storage) (op : Op)
    (refs : List (String × Ref)) (tps : List (String × Ty))
    (rawValues : List (String × Val)) (cidsAfterList : List (String × Id))
    (hop : op.structural = false)
    (hmiss : σ.existsCall (op.getCallHistoryId refs) = false)
    (hwrap : Storage.constructInputs (fuel + 1) σ tps
        (refs.map fun kv => (kv.1, Val.ref kv.2)) = (.ok (refs, []), σ))
    (hunwrap : Storage.unwrapInputs fuel σ refs = (.ok rawValues, σu))
    (hcids : Storage.cidsAfter fuel
        { σu with invoked := σu.invoked ++ [op.getCallHistoryId refs] }
        tps (op.f rawValues).2 = (.ok cidsAfterList, σc))
    (k : String) (r : Ref) (hk : (k, r) ∈ refs)
    (hdiff : lookupStr cidsAfterList k ≠ some r.cid) :
    Storage.callInternal (fuel + 1 + 1) σ op
        (refs.map fun kv => (kv.1, Val.ref kv.2)) tps = (.error .sideEffect, σc) ∧
    FrameOk σ σc := by
  have hpos : ((refs.map fun kv => (kv.1, kv.2.cid)).filter fun kv =>
      lookupStr cidsAfterList kv.1 ≠ some kv.2).length > 0 := by
    have hmem : (k, r.cid) ∈ (refs.map fun kv => (kv.1, kv.2.cid)) :=
      List.mem_map.mpr ⟨(k, r), hk, rfl⟩
    have hin : (k, r.cid) ∈ ((refs.map fun kv => (kv.1, kv.2.cid)).filter fun kv =>
        lookupStr cidsAfterList kv.1 ≠ some kv.2) :=
      List.mem_filter.mpr ⟨hmem, by simpa using hdiff⟩
    exact List.length_pos.mpr (List.ne_nil_of_mem hin)
  have hexec : Storage.execCall (fuel + 1) σ op refs tps (op.getCallHistoryId refs)
      = (.error .sideEffect, σc) := by
    rw [execCall_succ]
    simp only [hop, Bool.false_eq_true, if_false, hunwrap, hcids]
    rw [if_pos hpos]
  constructor
  · rw [callInternal_succ]
    simp only [hwrap, hmiss, Bool.false_eq_true, if_false, hexec]
  · have h1 : FrameOk σ σu :=
      FrameOk.ofEq hunwrap ((unwrapInputs_readFrame fuel refs σ).1)
    have h2 : FrameOk σu σc :=
      (FrameOk.invokedLog σu _).trans
        (FrameOk.ofEq hcids ((engine_frame fuel).2.2.1 _ _ _))
    exact h1.trans h2

/-- A concrete user op that mutates its input in place
(models `def mut(x): x += 1; return x` at the raw-value level). -/
def c3Op : Op :=
  { name := "mut", version := 0, structural := false
    outSig := [("output_0", Ty.atomT)]
    f := fun ins =>
      match ins with
      | [(k, .atom n)] => ([.atom n], [(k, .atom (n + 1))])
      | _ => ([], ins) }

/-- The concrete wrapped input of the C3 witness. -/
def c3Refs : List (String × Ref) := [("x", wrapAtom (.pv 1) none)]

/-- Witness for C3: the mutating op aborts with the side-effect error and
leaves the (empty) storage frame-unchanged. -/
theorem C3_side_effect_guard_witness :
    Storage.callInternal 10 Storage.empty c3Op
        (c3Refs.map fun kv => (kv.1, Val.ref kv.2)) [("x", Ty.atomT)]
      = (.error .sideEffect,
         { Storage.empty with
             invoked := [c3Op.getCallHistoryId c3Refs] }) ∧
    FrameOk Storage.empty
      { Storage.empty with invoked := [c3Op.getCallHistoryId c3Refs] } :=
  C3_side_effect_guard 8 Storage.empty Storage.empty
    { Storage.empty with invoked := [c3Op.getCallHistoryId c3Refs] }
    c3Op c3Refs [("x", Ty.atomT)] [("x", Val.atom 1)]
    [("x", Id.content (.pv 2))] rfl rfl rfl rfl rfl
    "x" (wrapAtom (.pv 1) none) (by simp [c3Refs]) (by decide)

/-! ## Claim C2 -/

/-- First invocation of `inc` on a fresh storage, without saving. -/
def c2Run1 : Except Err (List (String × Ref) × Call × List Call) × Storage :=
  Storage.callInternal 10 Storage.empty c1Op
    [("x", .ref (wrapAtom (.pv 1) none))] [("x", .atomT)]

/-- Second invocation of `inc` in sequence, still without saving. -/
def c2Run2 : Except Err (List (String × Ref) × Call × List Call) × Storage :=
  Storage.callInternal 10 c2Run1.2 c1Op
    [("x", .ref (wrapAtom (.pv 1) none))] [("x", .atomT)]

/-- Counterexample to C2 as stated: invoking `call_internal` twice in
sequence on the same inputs, with both invocations succeeding (no
side-effect violation), executes the underlying function twice for the one
distinct call hid — `call_internal` alone never records the call, so the
second invocation misses the memo check. -/
theorem C2_counterexample :
    c2Run1.1.toOption.isSome = true ∧
    c2Run2.1.toOption.isSome = true ∧
    c2Run2.2.invoked =
      [c1Op.getCallHistoryId [("x", wrapAtom (.pv 1) none)],
       c1Op.getCallHistoryId [("x", wrapAtom (.pv 1) none)]] :=
  ⟨rfl, rfl, rfl⟩

/-- An in-memory atom ref. -/
def Ref.isMemAtomB : Ref → Bool
  | .atom _ _ true _ => true
  | _ => false

/-- The raw value of an atom ref's payload (junk on list refs). -/
def Ref.rawVal : Ref → Val
  | .atom _ _ _ o => o.toVal
  | _ => .vnone

/-- Unwrapping in-memory atom inputs returns their payloads and leaves the
state untouched. -/
theorem unwrapInputs_memAtoms (fuel : Nat) :
    ∀ (refs : List (String × Ref)) (σ : Storage),
      (∀ kv ∈ refs, kv.2.isMemAtomB = true) →
      Storage.unwrapInputs fuel σ refs =
        (.ok (refs.map fun kv => (kv.1, kv.2.rawVal)), σ) := by
  intro refs
  induction refs with
  | nil => intro σ _; rw [Storage.unwrapInputs]; rfl
  | cons kv rest ih =>
    intro σ hall
    rcases kv with ⟨k, r⟩
    have hr : r.isMemAtomB = true := hall (k, r) (List.mem_cons_self _ _)
    rcases r with ⟨cid, hid, inM, obj⟩ | _
    · cases inM with
      | false => simp [Ref.isMemAtomB] at hr
      | true =>
        rw [Storage.unwrapInputs, Storage.unwrapRef]
        simp [ih σ fun kv hkv => hall kv (List.mem_cons_of_mem _ hkv), Ref.rawVal]
    · simp [Ref.isMemAtomB] at hr

/-- The guard's cid recomputation on ref-free raw values succeeds (under
atomic annotations) without touching the state. -/
theorem cidsAfter_pure (tps : List (String × Ty)) :
    ∀ (pvs : List (String × Val)) (fuel : Nat) (σ σ' : Storage)
      (L : List (String × Id)),
      (∀ kv ∈ pvs, (Val.toRaw? kv.2).isSome = true) →
      Storage.cidsAfter fuel σ tps pvs = (.ok L, σ') → σ' = σ := by
  intro pvs
  induction pvs with
  | nil =>
    intro fuel σ σ' L _ h
    cases fuel with
    | zero => rw [Storage.cidsAfter] at h; simp at h
    | succ fuel =>
      rw [cidsAfter_succ] at h
      simp only [Prod.mk.injEq, Except.ok.injEq] at h
      exact h.2.symm
  | cons kv rest ih =>
    intro fuel σ σ' L hall h
    cases fuel with
    | zero => rw [Storage.cidsAfter] at h; simp at h
    | succ fuel =>
      rcases kv with ⟨k, v⟩
      have hv : (Val.toRaw? v).isSome = true := hall (k, v) (List.mem_cons_self _ _)
      rw [cidsAfter_succ] at h
      rcases hl : lookupStr tps k with _ | tp
      · simp [hl] at h
      · simp only [hl] at h
        rcases hraw : Val.toRaw? v with _ | raw
        · rw [hraw] at hv; simp at hv
        · cases fuel with
          | zero => rw [Storage.construct] at h; simp at h
          | succ fuel' =>
            cases tp with
            | listT t =>
              have hcon : Storage.construct (fuel' + 1) σ (Ty.listT t) v
                  = (.error .typeErr, σ) := by
                rw [construct_succ]
                rcases v with _ | n | es | r
                · rfl
                · rfl
                · simp [Val.toRaw?] at hraw
                · simp [Val.toRaw?] at hraw
              simp [hcon] at h
            | atomT =>
              have hcon : Storage.construct (fuel' + 1) σ Ty.atomT v
                  = (.ok (wrapAtom raw none, []), σ) := by
                rw [construct_succ]
                rcases v with _ | n | es | r
                · obtain rfl : PyVal.pnone = raw := by
                    simpa [Val.toRaw?] using hraw
                  rfl
                · obtain rfl : PyVal.pv n = raw := by
                    simpa [Val.toRaw?] using hraw
                  rfl
                · simp [Val.toRaw?] at hraw
                · simp [Val.toRaw?] at hraw
              simp only [hcon] at h
              rcases hrest : Storage.cidsAfter (fuel' + 1) σ tps rest with ⟨res, σ''⟩
              rcases res with e | cs
              · rw [hrest] at h; simp at h
              · rw [hrest] at h
                simp only [Prod.mk.injEq, Except.ok.injEq] at h
                obtain ⟨-, h2⟩ := h
                exact h2.symm.trans (ih (fuel' + 1) σ σ'' cs
                  (fun kv hkv => hall kv (List.mem_cons_of_mem _ hkv)) hrest)

theorem lookupStr_map_keyfun {α : Type} (g : String → α) :
    ∀ (names : List String) (k : String), k ∈ names →
      lookupStr (names.map fun n => (n, g n)) k = some (g k) := by
  intro names
  induction names with
  | nil => intro k hk; simp at hk
  | cons n rest ih =>
    intro k hk
    rw [List.map_cons, lookupStr]
    by_cases hn : n = k
    · subst hn; rw [if_pos rfl]
    · rw [if_neg hn]
      refine ih k ?_
      rcases List.mem_cons.mp hk with h | h
      · exact absurd h.symm hn
      · exact h

theorem lookupStr_const {α : Type} (c : α) :
    ∀ (tps : List (String × α)) (k : String),
      (∀ kv ∈ tps, kv.2 = c) → k ∈ tps.map Prod.fst →
      lookupStr tps k = some c := by
  intro tps
  induction tps with
  | nil => intro k _ hk; simp at hk
  | cons kv rest ih =>
    intro k hall hk
    rcases kv with ⟨k₀, v₀⟩
    rw [lookupStr]
    by_cases hn : k₀ = k
    · rw [if_pos hn]
      exact congrArg some (hall (k₀, v₀) (List.mem_cons_self _ _))
    · rw [if_neg hn]
      refine ih k (fun kv hkv => hall kv (List.mem_cons_of_mem _ hkv)) ?_
      rw [List.map_cons] at hk
      rcases List.mem_cons.mp hk with h | h
      · exact absurd h.symm hn
      · exact h

/-- The raw payload of any ref is a ref-free value. -/
theorem rawVal_toRaw_isSome (r : Ref) : (Val.toRaw? r.rawVal).isSome = true := by
  rcases r with ⟨_, _, _, obj⟩ | _
  · cases obj <;> rfl
  · rfl

/-- Output wrapping on atomic annotations and ref-free returns: every
output is wrapped as a fresh atom ref carrying its derived output hid; the
state is untouched and no calls are generated. -/
theorem wrapOutputs_atoms (tps : List (String × Ty)) (hids : List (String × Id))
    (hidOf : String → Id) :
    ∀ (outs : List (String × Val)) (fuel : Nat) (σ σ' : Storage)
      (res : List (String × Ref)) (calls : List Call),
      (∀ kv ∈ outs, lookupStr tps kv.1 = some Ty.atomT) →
      (∀ kv ∈ outs, lookupStr hids kv.1 = some (hidOf kv.1)) →
      (∀ kv ∈ outs, (Val.toRaw? kv.2).isSome = true) →
      Storage.wrapOutputs fuel σ tps hids outs = (.ok (res, calls), σ') →
      σ' = σ ∧ calls = [] ∧
      res = outs.map fun kv =>
        (kv.1, wrapAtom (kv.2.toRaw?.getD .pnone) (some (hidOf kv.1))) := by
  intro outs
  induction outs with
  | nil =>
    intro fuel σ σ' res calls _ _ _ h
    cases fuel with
    | zero => rw [Storage.wrapOutputs] at h; simp at h
    | succ fuel =>
      rw [wrapOutputs_succ] at h
      simp only [Prod.mk.injEq, Except.ok.injEq] at h
      obtain ⟨⟨h1, h2⟩, h3⟩ := h
      exact ⟨h3.symm, h2.symm, h1.symm⟩
  | cons kv rest ih =>
    intro fuel σ σ' res calls htp hhid hraw h
    cases fuel with
    | zero => rw [Storage.wrapOutputs] at h; simp at h
    | succ fuel =>
      rcases kv with ⟨k, v⟩
      rw [wrapOutputs_succ] at h
      simp only [hhid (k, v) (List.mem_cons_self _ _)] at h
      rcases hr : Val.toRaw? v with _ | raw
      · have := hraw (k, v) (List.mem_cons_self _ _)
        rw [hr] at this; simp at this
      · have htp1 := htp (k, v) (List.mem_cons_self _ _)
        have htpr := fun kv hkv => htp kv (List.mem_cons_of_mem _ hkv)
        have hhidr := fun kv hkv => hhid kv (List.mem_cons_of_mem _ hkv)
        have hrawr := fun kv hkv => hraw kv (List.mem_cons_of_mem _ hkv)
        rcases v with _ | n | es | r
        case cons.succ.mk.some.vlist => simp [Val.toRaw?] at hr
        case cons.succ.mk.some.ref => simp [Val.toRaw?] at hr
        all_goals
          simp only [htp1, hr] at h
        all_goals
          rcases hrest : Storage.wrapOutputs fuel σ tps hids rest with ⟨resr, σ''⟩
        all_goals rcases resr with e | ⟨ws, cs⟩
        case cons.succ.mk.some.vnone.mk.error => rw [hrest] at h; simp at h
        case cons.succ.mk.some.atom.mk.error => rw [hrest] at h; simp at h
        all_goals
          rw [hrest] at h
          simp only [Prod.mk.injEq, Except.ok.injEq] at h
          obtain ⟨⟨hres, hcalls⟩, hσ⟩ := h
          obtain ⟨hσ2, hcs, hws⟩ := ih fuel σ σ'' ws cs htpr hhidr hrawr hrest
          refine ⟨hσ.symm.trans hσ2, hcalls.symm.trans hcs, ?_⟩
          rw [← hres, hws, List.map_cons]
          simp only [hr, Option.getD_some]

/-- A successful user-op execution on in-memory atom inputs with no
mutation: the returns are the function's first component and the only state
change is the ghost invocation log. -/
theorem execCall_user_atoms (f : Nat) (σ σ₂ : Storage) (op : Op)
    (refs : List (String × Ref)) (tps : List (String × Ty)) (H : Id)
    (rets : List Val)
    (hop : op.structural = false)
    (hatoms : ∀ kv ∈ refs, kv.2.isMemAtomB = true)
    (hpost : (op.f (refs.map fun kv => (kv.1, kv.2.rawVal))).2
      = refs.map fun kv => (kv.1, kv.2.rawVal))
    (h : Storage.execCall (f + 1) σ op refs tps H = (.ok rets, σ₂)) :
    σ₂ = { σ with invoked := σ.invoked ++ [H] } ∧
    rets = (op.f (refs.map fun kv => (kv.1, kv.2.rawVal))).1 := by
  rw [execCall_succ] at h
  simp only [hop, Bool.false_eq_true, if_false,
    unwrapInputs_memAtoms f refs σ hatoms, hpost] at h
  rcases hca : Storage.cidsAfter f
      { σ with invoked := σ.invoked ++ [H] } tps
      (refs.map fun kv => (kv.1, kv.2.rawVal)) with ⟨cres, σ₄⟩
  rcases cres with e | L
  · rw [hca] at h; simp at h
  · have hσ₄ : σ₄ = { σ with invoked := σ.invoked ++ [H] } :=
      cidsAfter_pure tps _ f _ σ₄ L
        (fun kv hkv => by
          obtain ⟨kv₀, -, rfl⟩ := List.mem_map.mp hkv
          exact rawVal_toRaw_isSome kv₀.2) hca
    simp only [hca] at h
    split at h
    · simp at h
    · simp only [Prod.mk.injEq, Except.ok.injEq] at h
      exact ⟨h.2.symm.trans hσ₄, h.1.symm⟩

/-- The miss path of `call_internal` for a user op on in-memory atom inputs
with atomic output annotations, ref-free returns and no mutation: the
outputs are freshly wrapped atoms keyed by the derived output hids, no
auxiliary calls are generated, and the only state change is the invocation
log entry. -/
theorem callInternal_miss_atoms (fuel : Nat) (σ σ' : Storage) (op : Op)
    (refs : List (String × Ref)) (tps : List (String × Ty))
    (outs : List (String × Ref)) (mc : Call) (aux : List Call)
    (hop : op.structural = false)
    (hatoms : ∀ kv ∈ refs, kv.2.isMemAtomB = true)
    (houtsig : ∀ kv ∈ op.outSig, kv.2 = Ty.atomT)
    (hpost : (op.f (refs.map fun kv => (kv.1, kv.2.rawVal))).2
      = refs.map fun kv => (kv.1, kv.2.rawVal))
    (hretsraw : ∀ v ∈ (op.f (refs.map fun kv => (kv.1, kv.2.rawVal))).1,
      (Val.toRaw? v).isSome = true)
    (hmiss : σ.existsCall (op.getCallHistoryId refs) = false)
    (hrun : Storage.callInternal (fuel + 1) σ op
        (refs.map fun kv => (kv.1, Val.ref kv.2)) tps = (.ok (outs, mc, aux), σ')) :
    σ' = { σ with invoked := σ.invoked ++ [op.getCallHistoryId refs] } ∧
    aux = [] ∧
    mc = { op := op, cid := op.getCallContentId refs
           hid := op.getCallHistoryId refs, inputs := refs, outputs := outs } ∧
    outs = ((op.outSig.map Prod.fst).zip
        (op.f (refs.map fun kv => (kv.1, kv.2.rawVal))).1).map fun kv =>
      (kv.1, wrapAtom (kv.2.toRaw?.getD .pnone)
        (some (Id.outputHid (op.getCallHistoryId refs) kv.1))) := by
  rw [callInternal_succ] at hrun
  rcases constructInputs_refs refs fuel σ tps with ⟨e, herr⟩ | hok
  · rw [herr] at hrun; simp at hrun
  · simp only [hok, hmiss, Bool.false_eq_true, if_false] at hrun
    cases fuel with
    | zero => rw [Storage.execCall] at hrun; simp at hrun
    | succ f =>
      rcases hex : Storage.execCall (f + 1) σ op refs tps
          (op.getCallHistoryId refs) with ⟨eres, σ₂⟩
      rcases eres with e | rets
      · rw [hex] at hrun; simp at hrun
      · obtain ⟨hσ₂, hrets⟩ :=
          execCall_user_atoms f σ σ₂ op refs tps _ rets hop hatoms hpost hex
        simp only [hex] at hrun
        rcases hwo : Storage.wrapOutputs (f + 1) σ₂ op.outSig
            (Op.getOutputHistoryIds (op.getCallHistoryId refs)
              (((op.outSig.map Prod.fst).zip rets).map Prod.fst))
            ((op.outSig.map Prod.fst).zip rets) with ⟨wres, σ₃⟩
        rcases wres with e | ⟨wrapped, ocalls⟩
        · rw [hwo] at hrun; simp at hrun
        · have hzip₁ : ∀ kv ∈ (op.outSig.map Prod.fst).zip rets,
              kv.1 ∈ op.outSig.map Prod.fst := by
            intro kv hkv
            rcases kv with ⟨a, b⟩
            exact (List.mem_zip hkv).1
          obtain ⟨hσ₃, hocalls, hwrapped⟩ :=
            wrapOutputs_atoms op.outSig
              (Op.getOutputHistoryIds (op.getCallHistoryId refs)
                (((op.outSig.map Prod.fst).zip rets).map Prod.fst))
              (fun k => Id.outputHid (op.getCallHistoryId refs) k)
              ((op.outSig.map Prod.fst).zip rets) (f + 1) σ₂ σ₃ wrapped ocalls
              (fun kv hkv => lookupStr_const Ty.atomT op.outSig kv.1 houtsig (hzip₁ kv hkv))
              (fun kv hkv => by
                rw [Op.getOutputHistoryIds]
                exact lookupStr_map_keyfun _ _ kv.1 (List.mem_map_of_mem _ hkv))
              (fun kv hkv => by
                rcases kv with ⟨a, b⟩
                exact hretsraw b (hrets ▸ (List.mem_zip hkv).2))
              hwo
          rw [hwo] at hrun
          simp only [Prod.mk.injEq, Except.ok.injEq] at hrun
          obtain ⟨⟨houts, hmc, haux⟩, hσ'⟩ := hrun
          refine ⟨hσ'.symm.trans (hσ₃.trans hσ₂), ?_, ?_, ?_⟩
          · rw [← haux, hocalls]; rfl
          · rw [← hmc, ← houts]
          · rw [← houts, hwrapped, hrets]

/-- If no element of the first list matches, `find?` over an append searches
the second list. -/
theorem find?_append_of_none {α : Type} (p : α → Bool) :
    ∀ (l₁ l₂ : List α), l₁.find? p = none → (l₁ ++ l₂).find? p = l₂.find? p := by
  intro l₁
  induction l₁ with
  | nil => intro l₂ _; rfl
  | cons a l ih =>
    intro l₂ h
    rw [List.cons_append]
    cases hp : p a
    · simp only [List.find?_cons, hp] at h ⊢
      exact ih l₂ h
    · simp only [List.find?_cons, hp] at h
      simp at h

/-- A match in the first list resolves `find?` over the append. -/
theorem find?_append_of_some {α : Type} (p : α → Bool) :
    ∀ (l₁ l₂ : List α) (a : α), l₁.find? p = some a →
      (l₁ ++ l₂).find? p = some a := by
  intro l₁
  induction l₁ with
  | nil => intro l₂ a h; simp [List.find?] at h
  | cons b l ih =>
    intro l₂ a h
    rw [List.cons_append]
    cases hp : p b
    · simp only [List.find?_cons, hp] at h ⊢
      exact ih l₂ a h
    · simp only [List.find?_cons, hp] at h ⊢
      exact h

/-- In a keyed ref list with pairwise distinct hids, searching the values by
an element's hid finds exactly that element. -/
theorem find?_by_hid (outs : List (String × Ref)) :
    ∀ (k : String) (r : Ref),
      (outs.map fun kv => kv.2.hid).Nodup → (k, r) ∈ outs →
      (outs.map Prod.snd).find? (fun s => decide (s.hid = r.hid)) = some r := by
  induction outs with
  | nil => intro k r _ hmem; simp at hmem
  | cons kv rest ih =>
    intro k r hnd hmem
    rcases kv with ⟨k₀, r₀⟩
    rw [List.map_cons] at hnd
    rcases List.mem_cons.mp hmem with heq | hmem'
    · injection heq with h1 h2
      subst h1; subst h2
      simp
    · have hne : r₀.hid ≠ r.hid := by
        intro hcontra
        have hmemhid : r.hid ∈ rest.map (fun kv => kv.2.hid) :=
          List.mem_map.mpr ⟨(k, r), hmem', rfl⟩
        exact (List.nodup_cons.mp hnd).1 (hcontra ▸ hmemhid)
      simp only [List.map_cons, List.find?_cons, decide_eq_false hne]
      exact ih k r (List.nodup_cons.mp hnd).2 hmem'

/-- The first components of a zip form a sublist of the first list. -/
theorem map_fst_zip_sublist {α β : Type} :
    ∀ (l : List α) (l' : List β), ((l.zip l').map Prod.fst).Sublist l := by
  intro l
  induction l with
  | nil => intro l'; simp
  | cons a t ih =>
    intro l'
    cases l' with
    | nil => simp
    | cons b t' =>
      rw [List.zip_cons_cons, List.map_cons]
      exact List.Sublist.cons₂ a (ih t')

/-- An in-memory atom ref is an atom constructor with its flag set. -/
theorem isMemAtomB_elim {r : Ref} (h : r.isMemAtomB = true) :
    ∃ c hd o, r = Ref.atom c hd true o := by
  rcases r with ⟨c, hd, im, o⟩ | ⟨c, hd, im, es⟩
  · cases im
    · simp [Ref.isMemAtomB] at h
    · exact ⟨c, hd, o, rfl⟩
  · simp [Ref.isMemAtomB] at h

/-- Wrapped atoms are in-memory atoms. -/
theorem wrapAtom_isMemAtom (v : PyVal) (hi : Option Id) :
    (wrapAtom v hi).isMemAtomB = true := rfl

/-- A key the dict does not hold peeks to nothing. -/
theorem CachedDict.peek_none_of_hasKey_false {κ β : Type} [DecidableEq κ]
    {s : CachedDict κ β} {k : κ} (h : s.hasKey k = false) : s.peek k = none := by
  rw [CachedDict.hasKey_eq_peek] at h
  cases hp : s.peek k with
  | none => rfl
  | some v => rw [hp] at h; simp at h

mutual

/-- `save_ref` touches only the `atoms` and `shapes` stores. -/
theorem saveRef_frame (σ : Storage) (r : Ref) :
    (σ.saveRef r).calls = σ.calls ∧ (σ.saveRef r).ops = σ.ops ∧
    (σ.saveRef r).inContext = σ.inContext ∧
    (σ.saveRef r).invoked = σ.invoked := by
  rcases r with ⟨cid, hid, inM, obj⟩ | ⟨cid, hid, inM, elts⟩ <;>
    rw [Storage.saveRef.eq_def]
  · split
    · exact ⟨rfl, rfl, rfl, rfl⟩
    · exact ⟨rfl, rfl, rfl, rfl⟩
  · split
    · exact ⟨rfl, rfl, rfl, rfl⟩
    · exact saveRefList_frame _ elts

/-- The ref-saving loop touches only the `atoms` and `shapes` stores. -/
theorem saveRefList_frame (σ : Storage) (l : List Ref) :
    (Storage.saveRefList σ l).calls = σ.calls ∧
    (Storage.saveRefList σ l).ops = σ.ops ∧
    (Storage.saveRefList σ l).inContext = σ.inContext ∧
    (Storage.saveRefList σ l).invoked = σ.invoked := by
  rcases l with _ | ⟨r, rs⟩
  · rw [Storage.saveRefList]
    exact ⟨rfl, rfl, rfl, rfl⟩
  · rw [Storage.saveRefList]
    obtain ⟨h1, h2, h3, h4⟩ := saveRef_frame σ r
    obtain ⟨g1, g2, g3, g4⟩ := saveRefList_frame (σ.saveRef r) rs
    exact ⟨g1.trans h1, g2.trans h2, g3.trans h3, g4.trans h4⟩

end

/-- `save_ref` of an atom never clobbers an existing shape binding. -/
theorem saveRef_atom_peek_some (σ : Storage) (c hd : Id) (im : Bool)
    (o : PyVal) (x : Id) (v : Ref) (hx : σ.shapes.peek x = some v) :
    (σ.saveRef (.atom c hd im o)).shapes.peek x = some v := by
  rw [Storage.saveRef.eq_def]
  split
  · exact hx
  next hk =>
    by_cases hhx : hd = x
    · subst hhx
      have hk' : (σ.shapes.peek hd).isSome = true := by rw [hx]; rfl
      rw [← CachedDict.hasKey_eq_peek] at hk'
      exact absurd hk' hk
    · exact (CachedDict.peek_set_ne σ.shapes hd x _ hhx).trans hx

/-- The ref-saving loop over atoms never clobbers an existing shape
binding. -/
theorem saveRefList_peek_some (l : List Ref) :
    ∀ (σ : Storage) (x : Id) (v : Ref), (∀ r ∈ l, r.isMemAtomB = true) →
      σ.shapes.peek x = some v →
      (Storage.saveRefList σ l).shapes.peek x = some v := by
  induction l with
  | nil => intro σ x v _ hx; rw [Storage.saveRefList]; exact hx
  | cons r rs ih =>
    intro σ x v hall hx
    have hr := hall r (List.mem_cons_self _ _)
    obtain ⟨c, hd, o, rfl⟩ := isMemAtomB_elim hr
    rw [Storage.saveRefList]
    exact ih _ x v (fun r hr => hall r (List.mem_cons_of_mem _ hr))
      (saveRef_atom_peek_some σ c hd true o x v hx)

/-- First write wins: saving a list of in-memory atoms binds each fresh hid
to the detached form of the first ref bearing it. -/
theorem saveRefList_peek_fresh (l : List Ref) :
    ∀ σ : Storage, (∀ r ∈ l, r.isMemAtomB = true) →
      ∀ x : Id, σ.shapes.peek x = none →
        (Storage.saveRefList σ l).shapes.peek x =
          (l.find? fun r => decide (r.hid = x)).map Ref.detached := by
  induction l with
  | nil =>
    intro σ _ x hx
    rw [Storage.saveRefList]
    exact hx
  | cons r rs ih =>
    intro σ hall x hx
    have hr := hall r (List.mem_cons_self _ _)
    obtain ⟨c, hd, o, rfl⟩ := isMemAtomB_elim hr
    have hallrs := fun r hr => hall r (List.mem_cons_of_mem _ hr)
    by_cases hhx : hd = x
    · subst hhx
      have hwrite : (σ.saveRef (.atom c hd true o)).shapes.peek hd =
          some (Ref.atom c hd false .pnone) := by
        rw [Storage.saveRef.eq_def]
        split
        next hk =>
          rw [CachedDict.hasKey_eq_peek] at hk
          have hk' : (σ.shapes.peek hd).isSome = true := hk
          rw [hx] at hk'; simp at hk'
        · exact CachedDict.peek_set_self _ _ _
      have hfind : (Ref.atom c hd true o :: rs).find?
          (fun r => decide (r.hid = hd)) = some (.atom c hd true o) := by
        simp [List.find?_cons, Ref.hid]
      rw [hfind]
      exact saveRefList_peek_some rs _ hd _ hallrs hwrite
    · have hpres : (σ.saveRef (.atom c hd true o)).shapes.peek x = none := by
        rw [Storage.saveRef.eq_def]
        split
        · exact hx
        · exact (CachedDict.peek_set_ne σ.shapes hd x _ hhx).trans hx
      have hrest := ih (σ.saveRef (.atom c hd true o)) hallrs x hpres
      have hfind : (Ref.atom c hd true o :: rs).find?
          (fun r => decide (r.hid = x)) =
          rs.find? (fun r => decide (r.hid = x)) := by
        simp [List.find?_cons, Ref.hid, hhx]
      rw [hfind]
      exact hrest

/-- `save_call` on an unseen call hid: the call row lands in the call
cache, the op row is registered, the invocation log is untouched, and on
atom refs the shape writes are first-write-wins over the saved ref list. -/
theorem saveCall_fresh (σ : Storage) (c : Call)
    (hmiss : σ.calls.hasKey c.hid = false) :
    (σ.saveCall c).calls.cache.get? c.hid = some (CallData.ofCall c) ∧
    (σ.saveCall c).calls.hasKey c.hid = true ∧
    ((σ.saveCall c).ops.peek c.op.name).isSome = true ∧
    (σ.saveCall c).invoked = σ.invoked ∧
    (∀ x, σ.shapes.peek x = none →
      (∀ r ∈ (c.inputs ++ c.outputs).map Prod.snd, r.isMemAtomB = true) →
      (σ.saveCall c).shapes.peek x =
        (((c.inputs ++ c.outputs).map Prod.snd).find? fun r =>
          decide (r.hid = x)).map Ref.detached) := by
  have hg : ¬ (σ.calls.hasKey c.hid = true) := by simp [hmiss]
  simp only [Storage.saveCall, if_neg hg]
  by_cases hko : σ.ops.hasKey c.op.name = true
  · rw [if_pos hko]
    refine ⟨Table.get?_set_self _ _ _, CachedDict.hasKey_set_self _ _ _, ?_, ?_, ?_⟩
    · show ((Storage.saveRefList σ ((c.inputs ++ c.outputs).map Prod.snd)).ops.peek
        c.op.name).isSome = true
      rw [(saveRefList_frame σ _).2.1]
      rw [CachedDict.hasKey_eq_peek] at hko
      exact hko
    · show (Storage.saveRefList σ ((c.inputs ++ c.outputs).map Prod.snd)).invoked
        = σ.invoked
      exact (saveRefList_frame σ _).2.2.2
    · intro x hx hall
      show (Storage.saveRefList σ ((c.inputs ++ c.outputs).map Prod.snd)).shapes.peek x = _
      exact saveRefList_peek_fresh _ σ hall x hx
  · rw [if_neg hko]
    refine ⟨Table.get?_set_self _ _ _, CachedDict.hasKey_set_self _ _ _, ?_, ?_, ?_⟩
    · show ((Storage.saveRefList { σ with ops := σ.ops.set c.op.name c.op.detached }
        ((c.inputs ++ c.outputs).map Prod.snd)).ops.peek c.op.name).isSome = true
      rw [(saveRefList_frame _ _).2.1]
      show ((σ.ops.set c.op.name c.op.detached).peek c.op.name).isSome = true
      rw [CachedDict.peek_set_self]
      rfl
    · show (Storage.saveRefList { σ with ops := σ.ops.set c.op.name c.op.detached }
        ((c.inputs ++ c.outputs).map Prod.snd)).invoked = σ.invoked
      exact (saveRefList_frame _ _).2.2.2
    · intro x hx hall
      show (Storage.saveRefList { σ with ops := σ.ops.set c.op.name c.op.detached }
        ((c.inputs ++ c.outputs).map Prod.snd)).shapes.peek x = _
      exact saveRefList_peek_fresh _ _ hall x hx

/-- Lazily loading rows whose hids are bound to atom shapes bearing the
rows' own identities: the load succeeds, reproduces the (name, hid, cid)
triples, and only reads. -/
theorem loadRefRows_lazy_atomRows (rows : List (String × Id × Id)) :
    ∀ (f : Nat) (σ : Storage),
      (∀ row ∈ rows, ∃ im o,
        σ.shapes.peek row.2.1 = some (.atom row.2.2 row.2.1 im o)) →
      ∃ (rs : List (String × Ref)) (σ' : Storage),
        Storage.loadRefRows (f + 1) σ rows true = (.ok rs, σ') ∧
        rs.map (fun kv => (kv.1, kv.2.hid, kv.2.cid)) = rows ∧
        ReadFrame σ σ' := by
  induction rows with
  | nil =>
    intro f σ _
    exact ⟨[], σ, by rw [Storage.loadRefRows], rfl, ReadFrame.self σ⟩
  | cons row rest ih =>
    intro f σ hall
    rcases row with ⟨k, hid, cid⟩
    obtain ⟨im, o, hpk⟩ := hall (k, hid, cid) (List.mem_cons_self _ _)
    have hload : Storage.loadRef (f + 1) σ hid true =
        (.ok (Ref.atom cid hid im o), { σ with shapes := (σ.shapes.get? hid).2 }) := by
      rcases hg : σ.shapes.get? hid with ⟨v?, sh'⟩
      have hv : v? = some (Ref.atom cid hid im o) := by
        rw [← hpk, ← CachedDict.get?_fst, hg]
      subst hv
      rw [Storage.loadRef, hg]
      rfl
    have hrf1 : ReadFrame σ { σ with shapes := (σ.shapes.get? hid).2 } :=
      ReadFrame.shapesRead σ hid
    have hall' : ∀ row ∈ rest, ∃ im o,
        ({ σ with shapes := (σ.shapes.get? hid).2 } : Storage).shapes.peek row.2.1 =
          some (.atom row.2.2 row.2.1 im o) := by
      intro row hrow
      obtain ⟨im', o', hp⟩ := hall row (List.mem_cons_of_mem _ hrow)
      exact ⟨im', o', (hrf1.1.shapes_peek _).trans hp⟩
    obtain ⟨rs, σ', hrun, htrip, hrf2⟩ := ih f _ hall'
    refine ⟨(k, Ref.atom cid hid im o) :: rs, σ', ?_, ?_, hrf1.comp hrf2⟩
    · simp only [Storage.loadRefRows, hload, hrun]
    · rw [List.map_cons, htrip]
      rfl

/-- `get_call` over a cached call row whose refs are stored as atom shapes
bearing the rows' identities: it succeeds and the returned outputs carry
exactly the stored (name, hid, cid) output rows. -/
theorem getCall_atomRows (f : Nat) (σ : Storage) (H : Id) (data : CallData)
    (hcache : σ.calls.cache.get? H = some data)
    (hops : (σ.ops.peek data.opName).isSome = true)
    (hin : ∀ row ∈ data.inputRows, ∃ im o,
      σ.shapes.peek row.2.1 = some (.atom row.2.2 row.2.1 im o))
    (hout : ∀ row ∈ data.outputRows, ∃ im o,
      σ.shapes.peek row.2.1 = some (.atom row.2.2 row.2.1 im o)) :
    ∃ (mc : Call) (σ' : Storage),
      Storage.getCall (f + 1) σ H true = (.ok mc, σ') ∧
      mc.outputs.map (fun kv => (kv.1, kv.2.hid, kv.2.cid)) = data.outputRows ∧
      mc.hid = data.hid ∧ mc.cid = data.cid := by
  obtain ⟨opD, hopD⟩ := Option.isSome_iff_exists.mp hops
  rcases hg : σ.ops.get? data.opName with ⟨v?, ops'⟩
  have hv : v? = some opD := by
    rw [← hopD, ← CachedDict.get?_fst, hg]
  subst hv
  have hrf1 : ReadFrame σ ({ σ with ops := ops' }) := by
    have h2 := ReadFrame.opsRead σ data.opName
    rw [hg] at h2
    exact h2
  have hin' : ∀ row ∈ data.inputRows, ∃ im o,
      ({ σ with ops := ops' } : Storage).shapes.peek row.2.1 =
        some (.atom row.2.2 row.2.1 im o) := by
    intro row hrow
    obtain ⟨im, o, hp⟩ := hin row hrow
    exact ⟨im, o, (hrf1.1.shapes_peek _).trans hp⟩
  obtain ⟨ins, σ₂, hrunIn, htripIn, hrf2⟩ :=
    loadRefRows_lazy_atomRows data.inputRows f _ hin'
  have hout' : ∀ row ∈ data.outputRows, ∃ im o,
      σ₂.shapes.peek row.2.1 = some (.atom row.2.2 row.2.1 im o) := by
    intro row hrow
    obtain ⟨im, o, hp⟩ := hout row hrow
    exact ⟨im, o, ((hrf1.comp hrf2).1.shapes_peek _).trans hp⟩
  obtain ⟨outs, σ₃, hrunOut, htripOut, hrf3⟩ :=
    loadRefRows_lazy_atomRows data.outputRows f σ₂ hout'
  refine ⟨{ op := opD, cid := data.cid, hid := data.hid
            inputs := ins, outputs := outs }, σ₃, ?_, htripOut, rfl, rfl⟩
  rw [Storage.getCall]
  simp only [hcache, hg, hrunIn, hrunOut]

/-- C2: corrected form.  `call_internal` alone does not persist the call,
so repeating a call is a memo hit only if the returned calls are saved
first.  Under that amendment: with the first run's main call saved via
`save_call`, the second invocation of the same op on the same inputs is a
memo hit that returns outputs with identical names, hids and cids and the
same call identities, and the function body runs exactly once — the ghost
invocation log gains one entry in the first run and none in the second. -/
theorem C2_call_saved_replay (fuel f : Nat) (σ σ₁ σ₃ : Storage) (op : Op)
    (refs : List (String × Ref)) (tps : List (String × Ty))
    (outs1 outs2 : List (String × Ref)) (mc mc2 : Call) (aux1 aux2 : List Call)
    (hop : op.structural = false)
    (hatoms : ∀ kv ∈ refs, kv.2.isMemAtomB = true)
    (houtsig : ∀ kv ∈ op.outSig, kv.2 = Ty.atomT)
    (hpost : (op.f (refs.map fun kv => (kv.1, kv.2.rawVal))).2
      = refs.map fun kv => (kv.1, kv.2.rawVal))
    (hretsraw : ∀ v ∈ (op.f (refs.map fun kv => (kv.1, kv.2.rawVal))).1,
      (Val.toRaw? v).isSome = true)
    (hmiss : σ.existsCall (op.getCallHistoryId refs) = false)
    (hinfresh : ∀ kv ∈ refs, σ.shapes.hasKey kv.2.hid = false)
    (houtfresh : ∀ k ∈ op.outSig.map Prod.fst,
      σ.shapes.hasKey (Id.outputHid (op.getCallHistoryId refs) k) = false)
    (hdisj : ∀ kv ∈ refs, ∀ k ∈ op.outSig.map Prod.fst,
      kv.2.hid ≠ Id.outputHid (op.getCallHistoryId refs) k)
    (hinNodup : (refs.map fun kv => kv.2.hid).Nodup)
    (houtNodup : (op.outSig.map Prod.fst).Nodup)
    (hrun1 : Storage.callInternal (fuel + 1) σ op
        (refs.map fun kv => (kv.1, Val.ref kv.2)) tps = (.ok (outs1, mc, aux1), σ₁))
    (hrun2 : Storage.callInternal (f + 1 + 1) (σ₁.saveCall mc) op
        (refs.map fun kv => (kv.1, Val.ref kv.2)) tps = (.ok (outs2, mc2, aux2), σ₃)) :
    outs2.map (fun kv => (kv.1, kv.2.hid, kv.2.cid)) =
      outs1.map (fun kv => (kv.1, kv.2.hid, kv.2.cid)) ∧
    mc2.hid = mc.hid ∧ mc2.cid = mc.cid ∧
    σ₁.invoked = σ.invoked ++ [op.getCallHistoryId refs] ∧
    σ₃.invoked = σ₁.invoked := by
  obtain ⟨hσ₁, haux1, hmc, houts1⟩ :=
    callInternal_miss_atoms fuel σ σ₁ op refs tps outs1 mc aux1
      hop hatoms houtsig hpost hretsraw hmiss hrun1
  have hc1 : σ₁.calls = σ.calls := by rw [hσ₁]
  have hs1 : σ₁.shapes = σ.shapes := by rw [hσ₁]
  have hi1 : σ₁.invoked = σ.invoked ++ [op.getCallHistoryId refs] := by rw [hσ₁]
  have hmchid : mc.hid = op.getCallHistoryId refs := by rw [hmc]
  have hguard : σ₁.calls.hasKey mc.hid = false := by
    rw [hc1, hmchid]
    exact hmiss
  obtain ⟨hF1, hF2, hF3, hF4, hF5⟩ := saveCall_fresh σ₁ mc hguard
  have hzipnames : ∀ x ∈ ((op.outSig.map Prod.fst).zip
      (op.f (refs.map fun kv => (kv.1, kv.2.rawVal))).1).map Prod.fst,
      x ∈ op.outSig.map Prod.fst :=
    fun x hx => (map_fst_zip_sublist _ _).subset hx
  have houts1struct : ∀ kv ∈ outs1, ∃ n raw, kv =
      (n, wrapAtom raw (some (Id.outputHid (op.getCallHistoryId refs) n))) ∧
      n ∈ op.outSig.map Prod.fst := by
    intro kv hkv
    rw [houts1] at hkv
    obtain ⟨p, hp, rfl⟩ := List.mem_map.mp hkv
    exact ⟨p.1, p.2.toRaw?.getD .pnone, rfl,
      hzipnames p.1 (List.mem_map_of_mem _ hp)⟩
  have hl : (mc.inputs ++ mc.outputs).map Prod.snd =
      refs.map Prod.snd ++ outs1.map Prod.snd := by
    rw [hmc]
    exact List.map_append _ _ _
  have hallsave : ∀ r ∈ (mc.inputs ++ mc.outputs).map Prod.snd,
      r.isMemAtomB = true := by
    rw [hl]
    intro r hr
    rcases List.mem_append.mp hr with hr | hr
    · obtain ⟨kv, hkv, rfl⟩ := List.mem_map.mp hr
      exact hatoms kv hkv
    · obtain ⟨kv, hkv, rfl⟩ := List.mem_map.mp hr
      obtain ⟨n, raw, hkv2, -⟩ := houts1struct kv hkv
      rw [hkv2]
      exact wrapAtom_isMemAtom _ _
  have hinj : Function.Injective (Id.outputHid (op.getCallHistoryId refs)) := by
    intro a b hab
    rw [Id.outputHid.injEq] at hab
    exact hab.2
  have hzipNodup : (((op.outSig.map Prod.fst).zip
      (op.f (refs.map fun kv => (kv.1, kv.2.rawVal))).1).map Prod.fst).Nodup :=
    List.Nodup.sublist (map_fst_zip_sublist _ _) houtNodup
  have houtsNodup : (outs1.map fun kv => kv.2.hid).Nodup := by
    rw [houts1, List.map_map]
    have hmapped := List.Nodup.map hinj hzipNodup
    rw [List.map_map] at hmapped
    exact hmapped
  have hpeek_in : ∀ kv ∈ refs, σ₁.shapes.peek kv.2.hid = none := by
    intro kv hkv
    rw [hs1]
    exact CachedDict.peek_none_of_hasKey_false (hinfresh kv hkv)
  have hfind_in : ∀ kv ∈ refs, (σ₁.saveCall mc).shapes.peek kv.2.hid =
      some (.atom kv.2.cid kv.2.hid false .pnone) := by
    intro kv hkv
    obtain ⟨k, r⟩ := kv
    obtain ⟨c, hd, o, hr⟩ := isMemAtomB_elim (hatoms (k, r) hkv)
    have hr' : r = Ref.atom c hd true o := hr
    subst hr'
    show (σ₁.saveCall mc).shapes.peek (Ref.atom c hd true o).hid =
      some ((Ref.atom c hd true o).detached)
    rw [hF5 (Ref.atom c hd true o).hid (hpeek_in _ hkv) hallsave, hl,
      find?_append_of_some _ _ _ _
        (find?_by_hid refs k (Ref.atom c hd true o) hinNodup hkv)]
    rfl
  have hfind_out : ∀ n raw,
      (n, wrapAtom raw (some (Id.outputHid (op.getCallHistoryId refs) n))) ∈ outs1 →
      n ∈ op.outSig.map Prod.fst →
      (σ₁.saveCall mc).shapes.peek
          (wrapAtom raw (some (Id.outputHid (op.getCallHistoryId refs) n))).hid =
        some ((wrapAtom raw
          (some (Id.outputHid (op.getCallHistoryId refs) n))).detached) := by
    intro n raw hmem hn
    have hnone : (refs.map Prod.snd).find?
        (fun s => decide (s.hid =
          (wrapAtom raw (some (Id.outputHid (op.getCallHistoryId refs) n))).hid)) =
        none := by
      rw [List.find?_eq_none]
      intro r hr
      obtain ⟨kv', hkv', rfl⟩ := List.mem_map.mp hr
      simp only [decide_eq_true_eq]
      show ¬ kv'.2.hid = Id.outputHid (op.getCallHistoryId refs) n
      exact hdisj kv' hkv' n hn
    have hpk : σ₁.shapes.peek
        (wrapAtom raw (some (Id.outputHid (op.getCallHistoryId refs) n))).hid =
        none := by
      rw [hs1]
      exact CachedDict.peek_none_of_hasKey_false (houtfresh n hn)
    rw [hF5 _ hpk hallsave, hl, find?_append_of_none _ _ _ hnone,
      find?_by_hid outs1 n _ houtsNodup hmem]
    rfl
  have hdata_in : ∀ row ∈ (CallData.ofCall mc).inputRows, ∃ im o,
      (σ₁.saveCall mc).shapes.peek row.2.1 =
        some (.atom row.2.2 row.2.1 im o) := by
    intro row hrow
    have hrows : (CallData.ofCall mc).inputRows =
        refs.map fun kv => (kv.1, kv.2.hid, kv.2.cid) := by
      rw [hmc]
      rfl
    rw [hrows] at hrow
    obtain ⟨kv, hkv, rfl⟩ := List.mem_map.mp hrow
    exact ⟨false, .pnone, hfind_in kv hkv⟩
  have hdata_out : ∀ row ∈ (CallData.ofCall mc).outputRows, ∃ im o,
      (σ₁.saveCall mc).shapes.peek row.2.1 =
        some (.atom row.2.2 row.2.1 im o) := by
    intro row hrow
    have hrows : (CallData.ofCall mc).outputRows =
        outs1.map fun kv => (kv.1, kv.2.hid, kv.2.cid) := by
      rw [hmc]
      rfl
    rw [hrows] at hrow
    obtain ⟨kv, hkv, rfl⟩ := List.mem_map.mp hrow
    obtain ⟨n, raw, hkv2, hn⟩ := houts1struct kv hkv
    subst hkv2
    exact ⟨false, .pnone, hfind_out n raw hkv hn⟩
  have hcache : (σ₁.saveCall mc).calls.cache.get? (op.getCallHistoryId refs) =
      some (CallData.ofCall mc) := by
    rw [← hmchid]
    exact hF1
  have hops : ((σ₁.saveCall mc).ops.peek (CallData.ofCall mc).opName).isSome
      = true := by
    have hopname : (CallData.ofCall mc).opName = mc.op.name := rfl
    rw [hopname]
    exact hF3
  obtain ⟨mcx, σx, hgc2, htrip, hhid, hcid⟩ :=
    getCall_atomRows f (σ₁.saveCall mc) (op.getCallHistoryId refs)
      (CallData.ofCall mc) hcache hops hdata_in hdata_out
  have hex2 : (σ₁.saveCall mc).existsCall (op.getCallHistoryId refs) = true := by
    rw [Storage.existsCall, ← hmchid]
    exact hF2
  obtain ⟨hgc, houts2, haux2, hinv2⟩ :=
    callInternal_hit (f + 1) (σ₁.saveCall mc) σ₃ op refs tps outs2 mc2 aux2
      hex2 hrun2
  have hcmp := hgc.symm.trans hgc2
  simp only [Prod.mk.injEq, Except.ok.injEq] at hcmp
  obtain ⟨hmc2x, hσ3x⟩ := hcmp
  subst hmc2x
  have houtrows : (CallData.ofCall mc).outputRows =
      outs1.map fun kv => (kv.1, kv.2.hid, kv.2.cid) := by
    rw [hmc]
    rfl
  refine ⟨?_, ?_, ?_, hi1, ?_⟩
  · rw [houts2, htrip, houtrows]
  · rw [hhid]
    rfl
  · rw [hcid]
    rfl
  · rw [hinv2]
    exact hF4

/-- The op of the C2 witness: `inc`, a pure user op with one atom output. -/
def c2sOp : Op :=
  { name := "inc2", version := 0, structural := false
    outSig := [("output_0", Ty.atomT)]
    f := fun ins =>
      match ins with
      | [(_, .atom n)] => ([.atom (n + 1)], ins)
      | _ => ([], ins) }

/-- The concrete wrapped input of the C2 witness. -/
def c2sRefs : List (String × Ref) := [("x", wrapAtom (.pv 1) none)]

/-- First invocation of `inc2` on the empty storage. -/
def c2sRun1 : Except Err (List (String × Ref) × Call × List Call) × Storage :=
  Storage.callInternal 10 Storage.empty c2sOp
    (c2sRefs.map fun kv => (kv.1, Val.ref kv.2)) [("x", Ty.atomT)]

/-- The outputs of the first invocation. -/
def c2sOuts1 : List (String × Ref) :=
  match c2sRun1.1 with
  | .ok (o, _, _) => o
  | _ => []

/-- The main call of the first invocation. -/
def c2sMc : Call :=
  match c2sRun1.1 with
  | .ok (_, m, _) => m
  | _ => { op := c2sOp, cid := .inil, hid := .inil, inputs := [], outputs := [] }

/-- The auxiliary calls of the first invocation. -/
def c2sAux1 : List Call :=
  match c2sRun1.1 with
  | .ok (_, _, a) => a
  | _ => []

/-- Second invocation of `inc2`, after saving the first run's main call. -/
def c2sRun2 : Except Err (List (String × Ref) × Call × List Call) × Storage :=
  Storage.callInternal 10 (c2sRun1.2.saveCall c2sMc) c2sOp
    (c2sRefs.map fun kv => (kv.1, Val.ref kv.2)) [("x", Ty.atomT)]

/-- The outputs of the second invocation. -/
def c2sOuts2 : List (String × Ref) :=
  match c2sRun2.1 with
  | .ok (o, _, _) => o
  | _ => []

/-- The main call of the second invocation. -/
def c2sMc2 : Call :=
  match c2sRun2.1 with
  | .ok (_, m, _) => m
  | _ => { op := c2sOp, cid := .inil, hid := .inil, inputs := [], outputs := [] }

/-- The auxiliary calls of the second invocation. -/
def c2sAux2 : List Call :=
  match c2sRun2.1 with
  | .ok (_, _, a) => a
  | _ => []

/-- Witness for the amended C2: saving the first `inc2` call and re-invoking
yields outputs with identical names, hids and cids, the same call
identities, and exactly one logged execution. -/
theorem C2_call_saved_replay_witness :
    c2sOuts2.map (fun kv => (kv.1, kv.2.hid, kv.2.cid)) =
      c2sOuts1.map (fun kv => (kv.1, kv.2.hid, kv.2.cid)) ∧
    c2sMc2.hid = c2sMc.hid ∧ c2sMc2.cid = c2sMc.cid ∧
    c2sRun1.2.invoked =
      Storage.empty.invoked ++ [c2sOp.getCallHistoryId c2sRefs] ∧
    c2sRun2.2.invoked = c2sRun1.2.invoked :=
  C2_call_saved_replay 9 8 Storage.empty c2sRun1.2 c2sRun2.2 c2sOp c2sRefs
    [("x", Ty.atomT)] c2sOuts1 c2sOuts2 c2sMc c2sMc2 c2sAux1 c2sAux2
    (by rfl) (by decide) (by decide) (by rfl) (by decide) (by rfl)
    (by decide) (by decide) (by decide) (by decide) (by decide)
    (by rfl) (by rfl)

/-! ## Claim C6 -/

/-- Chained keyed hashing is collision-free (constructor injectivity models
the hash's collision resistance). -/
theorem chainNamedIds_injective :
    ∀ l₁ l₂ : List (String × Id), chainNamedIds l₁ = chainNamedIds l₂ →
      l₁ = l₂ := by
  intro l₁
  induction l₁ with
  | nil =>
    intro l₂ h
    cases l₂ with
    | nil => rfl
    | cons kv rest =>
      rcases kv with ⟨s, i⟩
      rw [chainNamedIds, chainNamedIds] at h
      simp at h
  | cons kv rest ih =>
    intro l₂ h
    rcases kv with ⟨s, i⟩
    cases l₂ with
    | nil =>
      rw [chainNamedIds, chainNamedIds] at h
      simp at h
    | cons kv' rest' =>
      rcases kv' with ⟨s', i'⟩
      rw [chainNamedIds, chainNamedIds, Id.sicons.injEq] at h
      obtain ⟨rfl, rfl, h3⟩ := h
      rw [ih rest' h3]

/-- Embedding payloads into raw values is injective. -/
theorem PyVal.toVal_injective : ∀ a b : PyVal, a.toVal = b.toVal → a = b := by
  intro a b h
  cases a <;> cases b <;> simp [PyVal.toVal, Val.atom.injEq] at h
  · rfl
  · rw [h]

/-- C6: cid is a function of content only and hid of provenance only — two
miss-path calls of the same user op on inputs with different hids whose
same-named outputs carry equal payloads yield output refs sharing one cid
(the content hash of the payload) but with distinct hids (derived from the
two distinct call hids and the output name). -/
theorem C6_cid_content_hid_provenance
    (fuelA fuelB : Nat) (σA σA' σB σB' : Storage) (op : Op)
    (refsA refsB : List (String × Ref)) (tps : List (String × Ty))
    (outsA outsB : List (String × Ref)) (mcA mcB : Call)
    (auxA auxB : List Call)
    (hop : op.structural = false)
    (hatomsA : ∀ kv ∈ refsA, kv.2.isMemAtomB = true)
    (hatomsB : ∀ kv ∈ refsB, kv.2.isMemAtomB = true)
    (houtsig : ∀ kv ∈ op.outSig, kv.2 = Ty.atomT)
    (hpostA : (op.f (refsA.map fun kv => (kv.1, kv.2.rawVal))).2
      = refsA.map fun kv => (kv.1, kv.2.rawVal))
    (hpostB : (op.f (refsB.map fun kv => (kv.1, kv.2.rawVal))).2
      = refsB.map fun kv => (kv.1, kv.2.rawVal))
    (hretsrawA : ∀ v ∈ (op.f (refsA.map fun kv => (kv.1, kv.2.rawVal))).1,
      (Val.toRaw? v).isSome = true)
    (hretsrawB : ∀ v ∈ (op.f (refsB.map fun kv => (kv.1, kv.2.rawVal))).1,
      (Val.toRaw? v).isSome = true)
    (hmissA : σA.existsCall (op.getCallHistoryId refsA) = false)
    (hmissB : σB.existsCall (op.getCallHistoryId refsB) = false)
    (hrunA : Storage.callInternal (fuelA + 1) σA op
        (refsA.map fun kv => (kv.1, Val.ref kv.2)) tps
      = (.ok (outsA, mcA, auxA), σA'))
    (hrunB : Storage.callInternal (fuelB + 1) σB op
        (refsB.map fun kv => (kv.1, Val.ref kv.2)) tps
      = (.ok (outsB, mcB, auxB), σB'))
    (hhids : refsA.map (fun kv => (kv.1, kv.2.hid))
      ≠ refsB.map (fun kv => (kv.1, kv.2.hid)))
    (k : String) (rA rB : Ref)
    (hkA : (k, rA) ∈ outsA) (hkB : (k, rB) ∈ outsB)
    (hcontent : rA.rawVal = rB.rawVal) :
    rA.cid = rB.cid ∧ rA.hid ≠ rB.hid := by
  have houtsA := (callInternal_miss_atoms fuelA σA σA' op refsA tps outsA mcA
    auxA hop hatomsA houtsig hpostA hretsrawA hmissA hrunA).2.2.2
  have houtsB := (callInternal_miss_atoms fuelB σB σB' op refsB tps outsB mcB
    auxB hop hatomsB houtsig hpostB hretsrawB hmissB hrunB).2.2.2
  rw [houtsA] at hkA
  rw [houtsB] at hkB
  obtain ⟨p, hp, hpeq⟩ := List.mem_map.mp hkA
  obtain ⟨q, hq, hqeq⟩ := List.mem_map.mp hkB
  rw [Prod.mk.injEq] at hpeq hqeq
  obtain ⟨hpk, hpr⟩ := hpeq
  obtain ⟨hqk, hqr⟩ := hqeq
  subst hpr
  subst hqr
  have hraw : (p.2.toRaw?.getD PyVal.pnone).toVal
      = (q.2.toRaw?.getD PyVal.pnone).toVal := hcontent
  have hpq := PyVal.toVal_injective _ _ hraw
  constructor
  · show Id.content (p.2.toRaw?.getD PyVal.pnone)
      = Id.content (q.2.toRaw?.getD PyVal.pnone)
    rw [hpq]
  · intro h
    have h' : Id.outputHid (op.getCallHistoryId refsA) p.1
        = Id.outputHid (op.getCallHistoryId refsB) q.1 := h
    rw [Id.outputHid.injEq] at h'
    obtain ⟨hH, -⟩ := h'
    rw [Op.getCallHistoryId, Op.getCallHistoryId, Id.callHid.injEq] at hH
    obtain ⟨-, -, hchain⟩ := hH
    exact hhids (chainNamedIds_injective _ _ hchain)

/-- The op of the C6 witness. -/
def c6Op : Op :=
  { name := "inc6", version := 0, structural := false
    outSig := [("output_0", Ty.atomT)]
    f := fun ins =>
      match ins with
      | [(_, .atom n)] => ([.atom (n + 1)], ins)
      | _ => ([], ins) }

/-- First C6 input: payload `1` with the content-seeded hid. -/
def c6RefsA : List (String × Ref) := [("x", wrapAtom (.pv 1) none)]

/-- Second C6 input: the same payload `1` under a different hid. -/
def c6RefsB : List (String × Ref) :=
  [("x", Ref.atom (contentHash (serialize (.pv 1))) Id.inil true (.pv 1))]

/-- The first C6 run. -/
def c6RunA : Except Err (List (String × Ref) × Call × List Call) × Storage :=
  Storage.callInternal 10 Storage.empty c6Op
    (c6RefsA.map fun kv => (kv.1, Val.ref kv.2)) [("x", Ty.atomT)]

/-- The second C6 run. -/
def c6RunB : Except Err (List (String × Ref) × Call × List Call) × Storage :=
  Storage.callInternal 10 Storage.empty c6Op
    (c6RefsB.map fun kv => (kv.1, Val.ref kv.2)) [("x", Ty.atomT)]

/-- The outputs of the first C6 run. -/
def c6OutsA : List (String × Ref) :=
  match c6RunA.1 with
  | .ok (o, _, _) => o
  | _ => []

/-- The main call of the first C6 run. -/
def c6McA : Call :=
  match c6RunA.1 with
  | .ok (_, m, _) => m
  | _ => { op := c6Op, cid := .inil, hid := .inil, inputs := [], outputs := [] }

/-- The auxiliary calls of the first C6 run. -/
def c6AuxA : List Call :=
  match c6RunA.1 with
  | .ok (_, _, a) => a
  | _ => []

/-- The outputs of the second C6 run. -/
def c6OutsB : List (String × Ref) :=
  match c6RunB.1 with
  | .ok (o, _, _) => o
  | _ => []

/-- The main call of the second C6 run. -/
def c6McB : Call :=
  match c6RunB.1 with
  | .ok (_, m, _) => m
  | _ => { op := c6Op, cid := .inil, hid := .inil, inputs := [], outputs := [] }

/-- The auxiliary calls of the second C6 run. -/
def c6AuxB : List Call :=
  match c6RunB.1 with
  | .ok (_, _, a) => a
  | _ => []

/-- The output ref of the first C6 run. -/
def c6rA : Ref :=
  match c6OutsA with
  | (_, r) :: _ => r
  | _ => Ref.atom .inil .inil false .pnone

/-- The output ref of the second C6 run. -/
def c6rB : Ref :=
  match c6OutsB with
  | (_, r) :: _ => r
  | _ => Ref.atom .inil .inil false .pnone

/-- Witness for C6: running `inc6` on the two wrappings of `1` (distinct
hids, equal content) produces outputs with one shared cid and two distinct
hids. -/
theorem C6_cid_content_hid_provenance_witness :
    c6rA.cid = c6rB.cid ∧ c6rA.hid ≠ c6rB.hid :=
  C6_cid_content_hid_provenance 9 9 Storage.empty c6RunA.2 Storage.empty
    c6RunB.2 c6Op c6RefsA c6RefsB [("x", Ty.atomT)] c6OutsA c6OutsB
    c6McA c6McB c6AuxA c6AuxB
    (by rfl) (by decide) (by decide) (by decide) (by rfl) (by rfl)
    (by decide) (by decide) (by rfl) (by rfl) (by rfl) (by rfl)
    (by decide) "output_0" c6rA c6rB
    (by exact List.mem_cons_self _ _) (by exact List.mem_cons_self _ _)
    (by rfl)

/-! ## Claim C7 -/

/-- The first sweep of `cleanup_refs` always succeeds (its `verify` is off)
and removes exactly the given hids from the `shapes` table, touching
nothing else. -/
theorem dropRefHids_ok (l : List Id) :
    ∀ σ : Storage, ∃ σ', Storage.dropRefHids σ l = .ok σ' ∧
      σ'.calls = σ.calls ∧ σ'.atoms = σ.atoms ∧ σ'.ops = σ.ops ∧
      σ'.inContext = σ.inContext ∧ σ'.invoked = σ.invoked ∧
      (∀ k, σ'.shapes.persistent.get? k =
        if k ∈ l then none else σ.shapes.persistent.get? k) := by
  induction l with
  | nil =>
    intro σ
    exact ⟨σ, rfl, rfl, rfl, rfl, rfl, rfl, fun k => by simp⟩
  | cons h hs ih =>
    intro σ
    rw [Storage.dropRefHids]
    have hstep : σ.dropRefHid h false = .ok { σ with shapes := σ.shapes.drop h } := by
      rw [Storage.dropRefHid]
      simp
    rw [hstep]
    obtain ⟨σ', hrun, hc, ha, ho, hic, hin, hsh⟩ := ih { σ with shapes := σ.shapes.drop h }
    refine ⟨σ', hrun, hc, ha, ho, hic, hin, ?_⟩
    intro k
    rw [hsh k]
    by_cases hk : k ∈ h :: hs
    · rw [if_pos hk]
      rcases List.mem_cons.mp hk with hk1 | hk2
      · subst hk1
        by_cases hmem : k ∈ hs
        · rw [if_pos hmem]
        · rw [if_neg hmem]
          exact Table.get?_dropKey_self _ _
      · rw [if_pos hk2]
    · have h1 : k ∉ hs := fun hh => hk (List.mem_cons_of_mem _ hh)
      have h2 : ¬ h = k := fun hh => hk (hh ▸ List.mem_cons_self h hs)
      rw [if_neg hk, if_neg h1]
      exact Table.get?_dropKey_ne _ _ _ h2

/-- The second sweep of `cleanup_refs` always succeeds and removes exactly
the given cids from the `atoms` table, touching nothing else. -/
theorem dropRefCids_ok (l : List Id) :
    ∀ σ : Storage, ∃ σ', Storage.dropRefCids σ l = .ok σ' ∧
      σ'.calls = σ.calls ∧ σ'.shapes = σ.shapes ∧ σ'.ops = σ.ops ∧
      σ'.inContext = σ.inContext ∧ σ'.invoked = σ.invoked ∧
      (∀ k, σ'.atoms.persistent.get? k =
        if k ∈ l then none else σ.atoms.persistent.get? k) := by
  induction l with
  | nil =>
    intro σ
    exact ⟨σ, rfl, rfl, rfl, rfl, rfl, rfl, fun k => by simp⟩
  | cons c cs ih =>
    intro σ
    rw [Storage.dropRefCids]
    have hstep : σ.dropRefCid c false = .ok { σ with atoms := σ.atoms.drop c } := by
      rw [Storage.dropRefCid]
      simp
    rw [hstep]
    obtain ⟨σ', hrun, hc, hsh, ho, hic, hin, hat⟩ := ih { σ with atoms := σ.atoms.drop c }
    refine ⟨σ', hrun, hc, hsh, ho, hic, hin, ?_⟩
    intro k
    rw [hat k]
    by_cases hk : k ∈ c :: cs
    · rw [if_pos hk]
      rcases List.mem_cons.mp hk with hk1 | hk2
      · subst hk1
        by_cases hmem : k ∈ cs
        · rw [if_pos hmem]
        · rw [if_neg hmem]
          exact Table.get?_dropKey_self _ _
      · rw [if_pos hk2]
    · have h1 : k ∉ cs := fun hh => hk (List.mem_cons_of_mem _ hh)
      have h2 : ¬ c = k := fun hh => hk (hh ▸ List.mem_cons_self c cs)
      rw [if_neg hk, if_neg h1]
      exact Table.get?_dropKey_ne _ _ _ h2

/-- C7: outside a write context, `cleanup_refs` succeeds and performs its
two-phase sweep in order — the surviving `shapes` keys are exactly the hids
that some durable call references, and the surviving `atoms` keys are
exactly the cids referenced by some durable call or carried by some shape
surviving the first phase. -/
theorem C7_cleanupRefs_sweep (σ : Storage) (h : σ.inContext = false) :
    ∃ σ', σ.cleanupRefs = .ok σ' ∧
      σ'.calls = σ.calls ∧
      (∀ hid, hid ∈ σ'.shapes.persistent.keys ↔
        hid ∈ σ.shapes.persistent.keys ∧
        hid ∈ refHidsInCalls σ.calls.persistent) ∧
      (∀ cid, cid ∈ σ'.atoms.persistent.keys ↔
        cid ∈ σ.atoms.persistent.keys ∧
        (cid ∈ refCidsInCalls σ.calls.persistent ∨
         cid ∈ (σ'.shapes.persistent.values).map Ref.cid)) := by
  have horph : σ.getOrphans = .ok ((σ.shapes.persistent.keys).filter fun k =>
      k ∉ refHidsInCalls σ.calls.persistent) := by
    rw [Storage.getOrphans, if_neg (by rw [h]; exact Bool.false_ne_true)]
  obtain ⟨σ₁, hrun1, hc1, ha1, ho1, hic1, hin1, hsh1⟩ :=
    dropRefHids_ok ((σ.shapes.persistent.keys).filter fun k =>
      k ∉ refHidsInCalls σ.calls.persistent) σ
  have hunref : σ₁.getUnreferencedCids = .ok ((σ₁.atoms.persistent.keys).filter fun c =>
      c ∉ refCidsInCalls σ₁.calls.persistent ∧
      c ∉ (σ₁.shapes.persistent.values).map Ref.cid) := by
    rw [Storage.getUnreferencedCids,
      if_neg (by rw [hic1, h]; exact Bool.false_ne_true)]
  obtain ⟨σ₂, hrun2, hc2, hsh2, ho2, hic2, hin2, hat2⟩ :=
    dropRefCids_ok ((σ₁.atoms.persistent.keys).filter fun c =>
      c ∉ refCidsInCalls σ₁.calls.persistent ∧
      c ∉ (σ₁.shapes.persistent.values).map Ref.cid) σ₁
  refine ⟨σ₂, ?_, hc2.trans hc1, ?_, ?_⟩
  · simp only [Storage.cleanupRefs, horph, hrun1, hunref, hrun2]
  · intro hid
    rw [hsh2, Table.mem_keys_iff_get?, hsh1 hid]
    by_cases hk : hid ∈ (σ.shapes.persistent.keys).filter fun k =>
        k ∉ refHidsInCalls σ.calls.persistent
    · rw [if_pos hk]
      have := List.mem_filter.mp hk
      simp only [decide_eq_true_eq] at this
      constructor
      · intro hfalse; simp at hfalse
      · rintro ⟨_, hin⟩; exact absurd hin this.2
    · rw [if_neg hk, ← Table.mem_keys_iff_get?]
      constructor
      · intro hmem
        refine ⟨hmem, ?_⟩
        by_contra hnot
        exact hk (List.mem_filter.mpr ⟨hmem, by simpa using hnot⟩)
      · exact fun hp => hp.1
  · intro cid
    rw [Table.mem_keys_iff_get?, hat2 cid]
    have hshapes_eq : σ₂.shapes = σ₁.shapes := hsh2
    rw [hshapes_eq]
    have hcalls_eq : σ₁.calls = σ.calls := hc1
    have hatoms_eq : σ₁.atoms = σ.atoms := ha1
    by_cases hk : cid ∈ (σ₁.atoms.persistent.keys).filter fun c =>
        c ∉ refCidsInCalls σ₁.calls.persistent ∧
        c ∉ (σ₁.shapes.persistent.values).map Ref.cid
    · rw [if_pos hk]
      have := List.mem_filter.mp hk
      simp only [decide_eq_true_eq] at this
      constructor
      · intro hfalse; simp at hfalse
      · rintro ⟨_, hor⟩
        rcases hor with hor | hor
        · exact absurd (hcalls_eq ▸ hor) this.2.1
        · exact absurd hor this.2.2
    · rw [if_neg hk, ← Table.mem_keys_iff_get?]
      constructor
      · intro hmem
        have hmem' : cid ∈ σ.atoms.persistent.keys := by rw [← hatoms_eq]; exact hmem
        refine ⟨hmem', ?_⟩
        by_contra hnot
        push_neg at hnot
        refine hk (List.mem_filter.mpr ⟨hmem, ?_⟩)
        simp only [decide_eq_true_eq]
        exact ⟨fun hc => hnot.1 (hcalls_eq ▸ hc), hnot.2⟩
      · intro hp
        rw [hatoms_eq]
        exact hp.1

/-- Witness for C7 at a concrete storage: one orphaned shape and one
unreferenced atom are swept, outside any context. -/
theorem C7_cleanupRefs_sweep_witness :
    ∃ σ', (Storage.empty.saveRef (wrapAtom (.pv 5) none)).commitAll.cleanupRefs = .ok σ' ∧
      σ'.calls = (Storage.empty.saveRef (wrapAtom (.pv 5) none)).commitAll.calls ∧
      (∀ hid, hid ∈ σ'.shapes.persistent.keys ↔
        hid ∈ (Storage.empty.saveRef (wrapAtom (.pv 5) none)).commitAll.shapes.persistent.keys ∧
        hid ∈ refHidsInCalls (Storage.empty.saveRef (wrapAtom (.pv 5) none)).commitAll.calls.persistent) ∧
      (∀ cid, cid ∈ σ'.atoms.persistent.keys ↔
        cid ∈ (Storage.empty.saveRef (wrapAtom (.pv 5) none)).commitAll.atoms.persistent.keys ∧
        (cid ∈ refCidsInCalls (Storage.empty.saveRef (wrapAtom (.pv 5) none)).commitAll.calls.persistent ∨
         cid ∈ (σ'.shapes.persistent.values).map Ref.cid)) :=
  C7_cleanupRefs_sweep (Storage.empty.saveRef (wrapAtom (.pv 5) none)).commitAll rfl

end Mandala
